import Mathlib

/-!
Verification of the `robots_server` repository core against its
natural-language specification.

Rust strings are embedded as lists of characters (`Str`); Rust byte slices
as lists of naturals.  Rust `str::len` (a UTF-8 byte count) is embedded as
`rustLen`.  All definitions are computable transcriptions of the source in
`src/robots_data.rs`, `src/fetcher.rs` and `src/service.rs`; the external
`url` crate collaborator (URL parsing) is modelled from the spec where the
source does not contain it.
-/

set_option maxHeartbeats 1000000

abbrev Str := List Char

/-- UTF-8 byte width of one scalar value, as counted by Rust `str::len`. -/
def charUtf8Len (c : Char) : Nat :=
  if c.toNat < 0x80 then 1
  else if c.toNat < 0x800 then 2
  else if c.toNat < 0x10000 then 3
  else 4

/-- Rust `str::len`: the UTF-8 byte length of a string. -/
def rustLen (s : Str) : Nat := (s.map charUtf8Len).sum

/-- Rust `str::starts_with`. -/
def strStartsWith (s pre : Str) : Bool := s.take pre.length == pre

/-- Rust `str::ends_with`. -/
def strEndsWith (s suf : Str) : Bool :=
  suf.length ≤ s.length && s.drop (s.length - suf.length) == suf

/-- Rust `str::find(&str)`: index of the first occurrence of `needle`. -/
def strFind (haystack needle : Str) : Option Nat :=
  if strStartsWith haystack needle then some 0
  else
    match haystack with
    | [] => none
    | _ :: t => (strFind t needle).map (· + 1)

/-- Rust `str::contains(&str)`. -/
def strContains (haystack needle : Str) : Bool := (strFind haystack needle).isSome

/-- ASCII lower-casing of one character (model of Rust case folding). -/
def asciiLower (c : Char) : Char :=
  if 65 ≤ c.toNat ∧ c.toNat ≤ 90 then Char.ofNat (c.toNat + 32) else c

/-- Model of Rust `str::to_lowercase` (ASCII case folding). -/
def lowerStr (s : Str) : Str := s.map asciiLower

/-- Rust `str::split('*')`: the pattern pieces between wildcards. -/
def splitStar : Str → List Str
  | [] => [[]]
  | c :: t =>
    if c == '*' then [] :: splitStar t
    else
      match splitStar t with
      | h :: r => (c :: h) :: r
      | [] => [[c]]

/-- `robots_data.rs`: a parsed Allow/Disallow directive (proto `rule_type`:
1 = Allow, 2 = Disallow). -/
structure Rule where
  rule_type : Int
  path_pattern : Str
deriving DecidableEq

/-- `robots_data.rs`: one user-agent group. -/
structure UaGroup where
  user_agents : List Str
  rules : List Rule
deriving DecidableEq

/-- Proto `AccessResult`. -/
inductive AccessResult
  | unspecified
  | success
  | unavailable
  | unreachable
deriving DecidableEq

instance : BEq AccessResult := ⟨fun a b => decide (a = b)⟩

/-- `robots_data.rs`: the policy snapshot (`RobotsData`). -/
structure RobotsData where
  target_url : Str := []
  robots_txt_url : Str := []
  access_result : AccessResult := .unspecified
  http_status_code : Nat := 0
  groups : List UaGroup := []
  sitemaps : List Str := []
  content_length_bytes : Nat := 0
  truncated : Bool := false
deriving DecidableEq

/-- `RobotsData::wildcard_match`, inner indexed loop over
`pattern.split('*')` (index `i`, total part count `n`, scan cursor `pos`).
`anchored` is the Rust `exact` flag (pattern ended in `$`). -/
def wmLoop (path : Str) (anchored : Bool) (n : Nat) :
    List Str → Nat → Nat → Bool
  | [], _, _ => true
  | part :: rest, i, pos =>
    if part == [] then wmLoop path anchored n rest (i + 1) pos
    else if i == 0 then
      if strStartsWith path part then
        wmLoop path anchored n rest (i + 1) part.length
      else false
    else if i == n - 1 && anchored then
      if strEndsWith path part then wmLoop path anchored n rest (i + 1) pos
      else false
    else
      match strFind (path.drop pos) part with
      | some found => wmLoop path anchored n rest (i + 1) (pos + found + part.length)
      | none => false

/-- `RobotsData::wildcard_match`. -/
def wildcardMatch (path pattern : Str) (anchored : Bool) : Bool :=
  let parts := splitStar pattern
  if parts == [] then true
  else if parts.length == 1 then
    if anchored then path == pattern else strStartsWith path pattern
  else
    wmLoop path anchored parts.length parts 0 0

/-- `RobotsData::match_pattern`. -/
def matchPattern (path pattern : Str) (anchored : Bool) : Bool :=
  if pattern.contains '*' then wildcardMatch path pattern anchored
  else if anchored then path == pattern
  else strStartsWith path pattern

/-- `RobotsData::path_matches_rfc9309`. -/
def pathMatchesRfc9309 (path pattern : Str) : Bool :=
  if pattern.getLast? == some '$' then
    matchPattern path pattern.dropLast true
  else
    matchPattern path pattern false

/-- `is_allowed` group selection: groups whose user-agent token list has a
case-insensitive exact or substring match against the request user agent. -/
def matchingGroups (groups : List UaGroup) (uaLower : Str) : List UaGroup :=
  groups.filter fun g =>
    g.user_agents.any fun ua =>
      let uaL := lowerStr ua
      uaLower == uaL || strContains uaLower uaL

/-- `is_allowed` fallback: groups carrying the literal token `*`. -/
def wildcardGroups (groups : List UaGroup) : List UaGroup :=
  groups.filter fun g => g.user_agents.any fun ua => ua == ['*']

/-- `is_allowed` steps 1-2: the selected groups for a request user agent. -/
def groupsToCheck (d : RobotsData) (user_agent : Str) : List UaGroup :=
  let mg := matchingGroups d.groups (lowerStr user_agent)
  if mg.isEmpty then wildcardGroups d.groups else mg

/-- `is_allowed` rule pool: Allow/Disallow rules of the selected groups
(other `rule_type` values are skipped). -/
def allRules (gs : List UaGroup) : List Rule :=
  (gs.map fun g => g.rules.filter fun r => r.rule_type == 1 || r.rule_type == 2).flatten

/-- `is_allowed` candidate rules: pool rules whose pattern matches the path. -/
def candidateRules (d : RobotsData) (user_agent path : Str) : List Rule :=
  (allRules (groupsToCheck d user_agent)).filter fun r =>
    pathMatchesRfc9309 path r.path_pattern

/-- `is_allowed` steps 5-6 as the source computes them: byte-length maximum
over the raw pattern (trailing `$` included), then allow-wins tie break. -/
def codeDecision (rules : List Rule) : Bool :=
  if rules.isEmpty then true
  else
    let maxLen := (rules.map fun r => rustLen r.path_pattern).foldr max 0
    let longest := rules.filter fun r => rustLen r.path_pattern == maxLen
    let hasAllow := longest.any fun r => r.rule_type == 1
    let hasDisallow := longest.any fun r => r.rule_type == 2
    if hasAllow then true else !hasDisallow

/-- `RobotsData::is_allowed`. -/
def isAllowed (d : RobotsData) (user_agent path : Str) : Bool :=
  if (groupsToCheck d user_agent).isEmpty then true
  else codeDecision (candidateRules d user_agent path)

/-! ## URL model (external `url` crate collaborator) -/

/-- Modelled from the spec: the parsed-URL view the `url` crate gives the
source (`Url::parse` plus the accessors `scheme`, `host_str`, `port`,
`path`, `query`).  The crate itself is an external collaborator missing
from `src/`; `port` is the explicitly written non-default port, as the
crate's `Url::port` reports it. -/
structure UrlModel where
  scheme : Str
  host : Option Str
  port : Option Nat
  path : Str
  query : Option Str
deriving DecidableEq

def isAsciiAlpha (c : Char) : Bool :=
  (65 ≤ c.toNat && c.toNat ≤ 90) || (97 ≤ c.toNat && c.toNat ≤ 122)

def isAsciiDigit (c : Char) : Bool := 48 ≤ c.toNat && c.toNat ≤ 57

def isSchemeChar (c : Char) : Bool :=
  isAsciiAlpha c || isAsciiDigit c || c == '+' || c == '-' || c == '.'

def isHostChar (c : Char) : Bool :=
  !(c == '/' || c == '?' || c == '#' || c == ':' || c == '@' ||
    c == '[' || c == ']' || c == '\\' || c == ' ')

def digitVal? (c : Char) : Option Nat :=
  if isAsciiDigit c then some (c.toNat - 48) else none

def parseDigitsGo : Str → Nat → Option Nat
  | [], acc => some acc
  | c :: t, acc =>
    match digitVal? c with
    | some d => parseDigitsGo t (acc * 10 + d)
    | none => none

/-- Decimal port parsing (all-digit, most significant first). -/
def parseDigits (s : Str) : Option Nat :=
  match s with
  | [] => none
  | _ => parseDigitsGo s 0

def digitChar (n : Nat) : Char := Char.ofNat (48 + n)

def natToCharsGo : Nat → Nat → Str
  | 0, _ => []
  | fuel + 1, n =>
    if n < 10 then [digitChar n]
    else natToCharsGo fuel (n / 10) ++ [digitChar (n % 10)]

/-- Decimal rendering of a natural (used for ports and status codes). -/
def natToChars (n : Nat) : Str := natToCharsGo (n + 1) n

/-- Port parsing and default-port normalisation, as the `url` crate's
`Url::port` exposes them: an absent or empty port and a default port (80
for http, 443 for https) give `none`; a malformed or out-of-range port is
a parse failure. -/
def parsePort (scheme portRaw : Str) : Option (Option Nat) :=
  match portRaw with
  | [] => some none
  | [_] => some none
  | _ :: ds =>
    match parseDigits ds with
    | some p =>
      if p < 65536 then
        if (scheme == "http".toList && p == 80) || (scheme == "https".toList && p == 443) then
          some none
        else some (some p)
      else none
    | none => none

/-- Path and query of the part after the authority: path up to `?` or `#`
(`/` when empty, as the crate normalises special-scheme URLs), query
between `?` and `#`; the fragment is discarded. -/
def parsePathQuery (rest4 : Str) : Str × Option Str :=
  let pathRaw := rest4.takeWhile fun x => !(x == '?' || x == '#')
  let afterPath := rest4.dropWhile fun x => !(x == '?' || x == '#')
  let query : Option Str :=
    match afterPath with
    | '?' :: qs => some (qs.takeWhile fun x => !(x == '#'))
    | _ => none
  (if pathRaw == [] then ['/'] else pathRaw, query)

/-- Authority, path and query parsing for an already-validated scheme. -/
def parseAfterScheme (scheme rest3 : Str) : Option UrlModel :=
  let auth := rest3.takeWhile fun x => !(x == '/' || x == '?' || x == '#')
  let rest4 := rest3.dropWhile fun x => !(x == '/' || x == '?' || x == '#')
  let hostRaw := auth.takeWhile fun x => !(x == ':')
  let portRaw := auth.dropWhile fun x => !(x == ':')
  if hostRaw == [] || !hostRaw.all isHostChar then none
  else
    match parsePort scheme portRaw with
    | none => none
    | some port =>
      let pq := parsePathQuery rest4
      some { scheme := scheme, host := some (lowerStr hostRaw), port := port,
             path := pq.1, query := pq.2 }

/-- Modelled from the spec: `url::Url::parse` restricted to the
absolute-URL shapes the spec describes
(`scheme://host[:port]/path?query#fragment`).  Scheme and ASCII host
letters are lower-cased; default ports are normalised away, as `Url::port`
does; ports above 65535 and empty hosts are parse failures.  The crate
itself is an external collaborator not under `src/`. -/
def urlParse (s : Str) : Option UrlModel :=
  match s.takeWhile (fun c => !(c == ':')), s.dropWhile (fun c => !(c == ':')) with
  | c :: cs, _ :: rest2 =>
    if isAsciiAlpha c && (c :: cs).all isSchemeChar then
      match rest2 with
      | '/' :: '/' :: rest3 => parseAfterScheme (lowerStr (c :: cs)) rest3
      | _ => none
    else none
  | _, _ => none

/-- The `:port` piece of a formatted robots URL. -/
def portPiece : Option Nat → Str
  | none => []
  | some p => ':' :: natToChars p

/-! ## Fetcher (`fetcher.rs`) -/

def MAX_ROBOTS_TXT_SIZE : Nat := 550 * 1024

/-- `fetcher.rs` `FetchError`. -/
inductive FetchErrorModel
  | tooManyRedirects
  | unavailable (status : Nat)
  | unreachable (msg : Str) (status : Option Nat)
  | timeout
  | parseError (msg : Str)
  | invalidUrl (msg : Str)
deriving DecidableEq

/-- `extract_robots_url` (fetcher.rs lines 146-176). -/
def extractRobotsUrl (target_url : Str) : Except FetchErrorModel Str :=
  match urlParse target_url with
  | none => .error (.invalidUrl ("Failed to parse URL".toList))
  | some u =>
    if ¬ (u.scheme = "http".toList) ∧ ¬ (u.scheme = "https".toList) then
      .error (.invalidUrl ("Unsupported scheme: ".toList ++ u.scheme))
    else
      match u.host with
      | none => .error (.invalidUrl ("URL has no host".toList))
      | some host =>
        match u.port with
        | some p =>
          if (u.scheme = "http".toList ∧ p ≠ 80) ∨ (u.scheme = "https".toList ∧ p ≠ 443) then
            .ok (u.scheme ++ "://".toList ++ host ++ [':'] ++ natToChars p ++ "/robots.txt".toList)
          else
            .ok (u.scheme ++ "://".toList ++ host ++ "/robots.txt".toList)
        | none => .ok (u.scheme ++ "://".toList ++ host ++ "/robots.txt".toList)

/-- One item of the streamed response body: a byte chunk, or a transport
error surfaced while streaming. -/
inductive StreamItem
  | bytes (chunk : List Nat)
  | ioError (msg : Str)
deriving DecidableEq

/-- Rust `Iterator::rposition` for the byte 10 (`\n`). -/
def rpositionNl : List Nat → Option Nat
  | [] => none
  | b :: t =>
    match rpositionNl t with
    | some i => some (i + 1)
    | none => if b == 10 then some 0 else none

/-- The three UTF-8 bytes of U+FFFD, the replacement character that
`String::from_utf8_lossy` emits for each invalid subpart. -/
def replBytes : List Nat := [239, 191, 189]

/-- UTF-8 continuation byte (`0x80..=0xBF`). -/
def isCont (b : Nat) : Bool := decide (128 ≤ b ∧ b ≤ 191)

/-- The valid (lead, second) byte pairs of a three-byte UTF-8 sequence,
as checked by `core::str::validations::run_utf8_validation`. -/
def valid3Pair (b c : Nat) : Bool :=
  decide ((b = 224 ∧ 160 ≤ c ∧ c ≤ 191) ∨
          (225 ≤ b ∧ b ≤ 236 ∧ 128 ≤ c ∧ c ≤ 191) ∨
          (b = 237 ∧ 128 ≤ c ∧ c ≤ 159) ∨
          (238 ≤ b ∧ b ≤ 239 ∧ 128 ≤ c ∧ c ≤ 191))

/-- The valid (lead, second) byte pairs of a four-byte UTF-8 sequence. -/
def valid4Pair (b c : Nat) : Bool :=
  decide ((b = 240 ∧ 144 ≤ c ∧ c ≤ 191) ∨
          (241 ≤ b ∧ b ≤ 243 ∧ 128 ≤ c ∧ c ≤ 191) ∨
          (b = 244 ∧ 128 ≤ c ∧ c ≤ 143))

/-- The step function of `String::from_utf8_lossy` on the byte level:
decode the input `b :: rest`.  Valid UTF-8 sequences pass through
unchanged, and each maximal invalid subpart — a lead byte of width 0, a
rejected second byte, a missing continuation byte, or a sequence
truncated by the end of the input — is replaced by one U+FFFD
(`replBytes`), exactly as `core::str::Utf8Chunks` segments the input
(`run_utf8_validation` error lengths). -/
def utf8LossyCore : Nat → List Nat → List Nat
  | b, rest =>
    if b < 128 then
      b :: (match rest with | [] => [] | x :: xs => utf8LossyCore x xs)
    else if 194 ≤ b ∧ b ≤ 223 then
      match rest with
      | [] => replBytes
      | c :: rest2 =>
        if isCont c then
          b :: c :: (match rest2 with | [] => [] | x :: xs => utf8LossyCore x xs)
        else replBytes ++ utf8LossyCore c rest2
    else if 224 ≤ b ∧ b ≤ 239 then
      match rest with
      | [] => replBytes
      | c :: rest2 =>
        if valid3Pair b c then
          match rest2 with
          | [] => replBytes
          | d :: rest3 =>
            if isCont d then
              b :: c :: d :: (match rest3 with | [] => [] | x :: xs => utf8LossyCore x xs)
            else replBytes ++ utf8LossyCore d rest3
        else replBytes ++ utf8LossyCore c rest2
    else if 240 ≤ b ∧ b ≤ 244 then
      match rest with
      | [] => replBytes
      | c :: rest2 =>
        if valid4Pair b c then
          match rest2 with
          | [] => replBytes
          | d :: rest3 =>
            if isCont d then
              match rest3 with
              | [] => replBytes
              | e :: rest4 =>
                if isCont e then
                  b :: c :: d :: e ::
                    (match rest4 with | [] => [] | x :: xs => utf8LossyCore x xs)
                else replBytes ++ utf8LossyCore e rest4
            else replBytes ++ utf8LossyCore d rest3
        else replBytes ++ utf8LossyCore c rest2
    else
      match rest with
      | [] => replBytes
      | x :: xs => replBytes ++ utf8LossyCore x xs

/-- Rust `String::from_utf8_lossy`, as a map from raw bytes to the UTF-8
bytes of the resulting string. -/
def utf8Lossy : List Nat → List Nat
  | [] => []
  | b :: rest => utf8LossyCore b rest

/-- Valid UTF-8 byte sequences (the inputs on which
`run_utf8_validation` succeeds and `from_utf8_lossy` is the identity),
one encoded scalar value per constructor step. -/
inductive ValidU : List Nat → Prop
  | nil : ValidU []
  | ascii (b : Nat) (rest : List Nat) : b < 128 → ValidU rest → ValidU (b :: rest)
  | two (b c : Nat) (rest : List Nat) : 194 ≤ b → b ≤ 223 → isCont c = true →
      ValidU rest → ValidU (b :: c :: rest)
  | three (b c d : Nat) (rest : List Nat) : 224 ≤ b → b ≤ 239 →
      valid3Pair b c = true → isCont d = true → ValidU rest →
      ValidU (b :: c :: d :: rest)
  | four (b c d e : Nat) (rest : List Nat) : 240 ≤ b → b ≤ 244 →
      valid4Pair b c = true → isCont d = true → isCont e = true → ValidU rest →
      ValidU (b :: c :: d :: e :: rest)

/-- Rust `str::is_char_boundary` on the UTF-8 bytes of a `String`. -/
def isCharBoundary (s : List Nat) (i : Nat) : Bool :=
  i == 0 ||
    (match s.get? i with
     | none => i == s.length
     | some b => !(isCont b))

/-- Rust `String::truncate`: a no-op past the end of the string, keeps
the first `n` bytes when `n` lies on a char boundary, and panics
(`none`) otherwise. -/
def strTruncate (s : List Nat) (n : Nat) : Option (List Nat) :=
  if n ≤ s.length then
    if isCharBoundary s n then some (s.take n) else none
  else some s

/-- Outcome of the streaming body loop: a stored body with its
`truncated` flag, a fetch error from a failed chunk, or a panic raised
by `body.truncate`. -/
inductive BodyResult
  | ok (body : List Nat) (truncated : Bool)
  | ioErr (e : FetchErrorModel)
  | panicked
deriving DecidableEq

/-- The streaming read loop of `fetch` (fetcher.rs lines 75-99).  Each
chunk is decoded with `String::from_utf8_lossy` (`utf8Lossy`) before it
is appended to `body`, so `body` holds the UTF-8 bytes of the
accumulated `String` while `total` counts raw stream bytes; the
bookkeeping index `last_newline` is `body.len() + pos` with `pos` the
raw-chunk offset of the newline.  On the cap-crossing chunk, a newline
in the chunk's prefix keeps the decoded prefix through that newline,
and otherwise `body.truncate(last_newline)` cuts the body back — a
`String::truncate` that panics if the index is not a char boundary. -/
def readBody (status : Nat) :
    List StreamItem → List Nat → Nat → Nat → BodyResult
  | [], body, _, _ => .ok body false
  | .ioError msg :: _, _, _, _ => .ioErr (.unreachable msg (some status))
  | .bytes chunk :: rest, body, total, lastNewline =>
    if total + chunk.length > MAX_ROBOTS_TXT_SIZE then
      let remaining := MAX_ROBOTS_TXT_SIZE - total
      let part := chunk.take remaining
      match rpositionNl part with
      | some lastNl => .ok (body ++ utf8Lossy (part.take (lastNl + 1))) true
      | none =>
        match strTruncate body lastNewline with
        | some body2 => .ok body2 true
        | none => .panicked
    else
      let lastNewline' :=
        match rpositionNl chunk with
        | some pos => body.length + pos
        | none => lastNewline
      readBody status rest (body ++ utf8Lossy chunk) (total + chunk.length) lastNewline'

/-- The network-visible outcome of the GET issued by `fetch`. -/
inductive HttpOutcome
  | timeoutErr
  | transportErr (msg : Str)
  | response (status : Nat) (stream : List StreamItem)

/-- `RobotsFetcher::fetch` (fetcher.rs lines 45-142), parameterised by the
external robots.txt parser `parse` (groups and sitemaps from a body).
The result is `none` when the body loop panics in `body.truncate`, and
otherwise `some` of the fetch result. -/
def fetchModel (parse : List Nat → List UaGroup × List Str)
    (target_url : Str) (content_length : Nat) (outcome : HttpOutcome) :
    Option (Except FetchErrorModel RobotsData) :=
  match extractRobotsUrl target_url with
  | .error e => some (.error e)
  | .ok robots_url =>
    match outcome with
    | .timeoutErr => some (.error .timeout)
    | .transportErr msg => some (.error (.unreachable msg none))
    | .response status stream =>
      if 200 ≤ status ∧ status ≤ 299 then
        match readBody status stream [] 0 0 with
        | .ioErr e => some (.error e)
        | .panicked => none
        | .ok body truncated =>
          let parsed := parse body
          some (.ok
            { target_url := target_url, robots_txt_url := robots_url,
              access_result := .success, http_status_code := status,
              groups := parsed.1, sitemaps := parsed.2,
              content_length_bytes := content_length, truncated := truncated })
      else if 400 ≤ status ∧ status ≤ 499 then
        some (.error (.unavailable status))
      else if 500 ≤ status ∧ status ≤ 599 then
        some (.error (.unreachable ("Server error: ".toList ++ natToChars status) (some status)))
      else
        some (.error (.unreachable ("Unexpected status: ".toList ++ natToChars status) none))

/-- HTTP client configuration chosen by `RobotsFetcher::new`. -/
structure ClientConfig where
  timeoutSecs : Option Nat
  redirectLimit : Nat
deriving DecidableEq

/-- Modelled from the spec: the redirect limit of reqwest's default
`redirect::Policy`, which `RobotsFetcher::new` never overrides (the
builder in fetcher.rs lines 36-41 sets only the timeout). -/
def reqwestDefaultRedirectLimit : Nat := 10

/-- The client built by `RobotsFetcher::new` (fetcher.rs lines 34-42). -/
def robotsFetcherClient : ClientConfig :=
  { timeoutSecs := some 30, redirectLimit := reqwestDefaultRedirectLimit }

/-- Whether the client follows a chain of `hops` redirects to completion. -/
def redirectChainFollowed (cfg : ClientConfig) (hops : Nat) : Bool :=
  hops ≤ cfg.redirectLimit

/-- Recogniser for the `TooManyRedirects` fetch outcome. -/
def isTooManyRedirectsErr : Option (Except FetchErrorModel RobotsData) → Bool
  | some (.error .tooManyRedirects) => true
  | _ => false

/-! ## Service coordinator (`service.rs`) -/

/-- `tonic::Status` outcomes the coordinator can surface. -/
inductive StatusErr
  | invalidArgument (msg : Str)
  | internal (msg : Str)
deriving DecidableEq

/-- The `Display` text of a fetch error (`thiserror` messages). -/
def fetchErrMsg : FetchErrorModel → Str
  | .tooManyRedirects => "Too many redirects".toList
  | .unavailable s => "Robots.txt unavailable: HTTP ".toList ++ natToChars s
  | .unreachable msg _ => "Server unreachable: ".toList ++ msg
  | .timeout => "Request timeout".toList
  | .parseError _ => "Failed to parse robots.txt".toList
  | .invalidUrl msg => "Invalid URL: ".toList ++ msg

/-- `RobotsServer::get_robots_data` on a cache miss (service.rs lines
40-118): fetch, then normalise `Unavailable` / `Unreachable` / `Timeout`
into snapshots; other fetch errors surface as `Internal`.  (A cache hit
returns a previously produced snapshot unchanged.) -/
def getRobotsDataMiss (parse : List Nat → List UaGroup × List Str)
    (robots_url target_url : Str) (content_length : Nat) (outcome : HttpOutcome) :
    Option (Except StatusErr RobotsData) :=
  match fetchModel parse target_url content_length outcome with
  | none => none
  | some (.ok data) => some (.ok data)
  | some (.error (.unavailable s)) =>
    some (.ok
      { target_url := target_url, robots_txt_url := robots_url,
        access_result := .unavailable, http_status_code := s })
  | some (.error (.unreachable _ s)) =>
    some (.ok
      { target_url := target_url, robots_txt_url := robots_url,
        access_result := .unreachable, http_status_code := s.getD 0 })
  | some (.error .timeout) =>
    some (.ok
      { target_url := target_url, robots_txt_url := robots_url,
        access_result := .unreachable })
  | some (.error e) => some (.error (.internal (fetchErrMsg e)))

/-- `extract_path_from_url` (service.rs lines 178-187). -/
def extractPathFromUrl (url : Str) : Except StatusErr Str :=
  match urlParse url with
  | none => .error (.invalidArgument ("relative URL without a base".toList))
  | some m =>
    .ok (m.path ++ (match m.query with | some q => '?' :: q | none => []))

/-- The `is_allowed` RPC handler (service.rs lines 153-175) on a cache
miss, with the network outcome as an explicit input. -/
def isAllowedRpc (parse : List Nat → List UaGroup × List Str)
    (content_length : Nat) (outcome : HttpOutcome)
    (target_url user_agent : Str) : Option (Except StatusErr Bool) :=
  match extractRobotsUrl target_url with
  | .error e => some (.error (.invalidArgument (fetchErrMsg e)))
  | .ok robots_url =>
    match getRobotsDataMiss parse robots_url target_url content_length outcome with
    | none => none
    | some (.error e) => some (.error e)
    | some (.ok data) =>
      match data.access_result with
      | .unreachable => some (.ok false)
      | _ =>
        match extractPathFromUrl target_url with
        | .error e => some (.error e)
        | .ok path => some (.ok (isAllowed data user_agent path))

/-! ## Claim-side (specification) definitions -/

/-- Pattern length as claim C1 states it: character count of the raw
pattern including `*` and excluding a trailing anchoring `$`. -/
def claimPatternLen (p : Str) : Nat :=
  if p.getLast? == some '$' then p.length - 1 else p.length

/-- Steps 5-6 of the matcher as claim C1 words them, over the candidate
pool: retain the candidates of maximal `claimPatternLen`; allow if any
retained rule is Allow, deny if none is Allow and some is Disallow,
allow if nothing matched. -/
def claimDecision (rules : List Rule) : Bool :=
  if rules.isEmpty then true
  else
    let maxLen := (rules.map fun r => claimPatternLen r.path_pattern).foldr max 0
    let retained := rules.filter fun r => claimPatternLen r.path_pattern == maxLen
    if retained.any fun r => r.rule_type == 1 then true
    else if retained.any fun r => r.rule_type == 2 then false
    else true

/-- Claim C1's full decision: the code's group selection and candidate
filter with the claim's length metric and tie break. -/
def claimIsAllowed (d : RobotsData) (user_agent path : Str) : Bool :=
  if (groupsToCheck d user_agent).isEmpty then true
  else claimDecision (candidateRules d user_agent path)

/-- Steps 5-6 with the amended metric: the byte length of the raw pattern
including `*` and including any trailing `$` (what the source computes). -/
def amendedDecision (rules : List Rule) : Bool :=
  if rules.isEmpty then true
  else
    let maxLen := (rules.map fun r => rustLen r.path_pattern).foldr max 0
    let retained := rules.filter fun r => rustLen r.path_pattern == maxLen
    if retained.any fun r => r.rule_type == 1 then true
    else if retained.any fun r => r.rule_type == 2 then false
    else true

/-- The amended claim C1 decision. -/
def amendedIsAllowed (d : RobotsData) (user_agent path : Str) : Bool :=
  if (groupsToCheck d user_agent).isEmpty then true
  else amendedDecision (candidateRules d user_agent path)

/-- Claim C4's scan over the literal segments (the pieces of the pattern
between `*`s), strict form: each segment is placed at or after the scan
cursor, and the final segment both ends the path and lies at or after the
cursor (segments may not overlap). -/
def claimSegScan (path : Str) : List Str → Nat → Bool
  | [], _ => true
  | s :: rest, pos =>
    match rest with
    | [] => strEndsWith path s && decide (pos + s.length ≤ path.length)
    | _ =>
      if s == [] then claimSegScan path rest pos
      else
        match strFind (path.drop pos) s with
        | some j => claimSegScan path rest (pos + j + s.length)
        | none => false

/-- Claim C4's matcher for a pattern containing `*` and ending in `$`:
strip the `$`, split on `*`, anchor the first segment at the path start,
scan the rest, and require the final segment to end the path without
overlapping earlier segments. -/
def claimWildcardDollar (path pattern : Str) : Bool :=
  match splitStar pattern.dropLast with
  | [] => true
  | p0 :: rest =>
    if p0 == [] then claimSegScan path rest 0
    else if strStartsWith path p0 then
      match rest with
      | [] => path == p0
      | _ => claimSegScan path rest p0.length
    else false

/-- The amended segment scan: as `claimSegScan`, but the final literal
segment is only required to be a suffix of the path — it may overlap path
bytes already consumed by earlier segments, which is what the source's
`ends_with` check does. -/
def amendSegScan (path : Str) : List Str → Nat → Bool
  | [], _ => true
  | s :: rest, pos =>
    match rest with
    | [] => strEndsWith path s
    | _ =>
      if s == [] then amendSegScan path rest pos
      else
        match strFind (path.drop pos) s with
        | some j => amendSegScan path rest (pos + j + s.length)
        | none => false

/-- The amended claim C4 matcher. -/
def amendWildcardDollar (path pattern : Str) : Bool :=
  match splitStar pattern.dropLast with
  | [] => true
  | p0 :: rest =>
    if p0 == [] then amendSegScan path rest 0
    else if strStartsWith path p0 then
      match rest with
      | [] => path == p0
      | _ => amendSegScan path rest p0.length
    else false

/-- Total byte length of a chunk sequence. -/
def sumLens (chunks : List (List Nat)) : Nat := (chunks.map List.length).sum

/-- Claim C8's port piece: emit `:port` exactly when a port is present and
differs from the scheme's default. -/
def claimPortPiece (m : UrlModel) : Str :=
  match m.port with
  | none => []
  | some p =>
    if (m.scheme = "http".toList ∧ p = 80) ∨ (m.scheme = "https".toList ∧ p = 443) then []
    else ':' :: natToChars p

/-- Invariants of every successful `urlParse` result, used for the
idempotence of `extract_robots_url`. -/
structure UrlInvP (m : UrlModel) : Prop where
  scheme_ne : m.scheme ≠ []
  scheme_head : isAsciiAlpha m.scheme.headI = true
  scheme_all : m.scheme.all isSchemeChar = true
  scheme_lower : lowerStr m.scheme = m.scheme
  host_inv : ∀ h, m.host = some h → h ≠ [] ∧ h.all isHostChar = true ∧ lowerStr h = h
  host_some : m.host ≠ none
  port_inv : ∀ p, m.port = some p →
    p < 65536 ∧ ¬(m.scheme = "http".toList ∧ p = 80) ∧ ¬(m.scheme = "https".toList ∧ p = 443)

/-- A concrete policy: one wildcard group with `Allow: /ab` and
`Disallow: /ab$`. -/
def c1Policy : RobotsData :=
  { access_result := .success, http_status_code := 200,
    groups := [⟨[['*']], [⟨1, "/ab".toList⟩, ⟨2, "/ab$".toList⟩]⟩] }

/-- A policy whose only rule is an empty-pattern Disallow. -/
def emptyDisallowPolicy : RobotsData :=
  { access_result := .success, http_status_code := 200,
    groups := [⟨[['*']], [⟨2, []⟩]⟩] }

/-- A policy whose only rule is an empty-pattern Allow. -/
def emptyAllowPolicy : RobotsData :=
  { access_result := .success, http_status_code := 200,
    groups := [⟨[['*']], [⟨1, []⟩]⟩] }

/-- The chunk stream of the C2 counterexample: a two-byte chunk `"a\n"`
followed by one newline-free chunk that crosses the size cap. -/
def c2Chunks : List (List Nat) := [[97, 10], List.replicate 563200 120]

/-- A single cap-crossing chunk of invalid UTF-8 (563199 bytes `0xFF`
followed by `"\n" "a"`): each `0xFF` decodes to a three-byte replacement
character, so the stored body blows past the cap. -/
def c2BadChunks : List (List Nat) := [List.replicate 563199 255 ++ [10, 97]]

/-- A chunk stream on which `body.truncate(last_newline)` panics: the
first chunk `[0xFF, \n]` decodes to four bytes but `last_newline` is the
raw offset 1, which falls inside the decoded replacement character when
the newline-free second chunk crosses the cap. -/
def c2PanicChunks : List (List Nat) := [[255, 10], List.replicate 563199 120]

/-- A trivial stand-in for the external robots.txt parser. -/
def trivialParse : List Nat → List UaGroup × List Str := fun _ => ([], [])


/-- The C5 counterexample network outcome: a 2xx response whose body
stream fails mid-read. -/
def c5Outcome : HttpOutcome := .response 200 [.ioError "chunk error".toList]

/-- The snapshot the coordinator produces for `c5Outcome`. -/
def c5Snap : RobotsData :=
  { target_url := "http://h".toList, robots_txt_url := "http://h/robots.txt".toList,
    access_result := .unreachable, http_status_code := 200 }

/-- The snapshot the coordinator produces for a plain 404. -/
def c6Snap : RobotsData :=
  { target_url := "http://h".toList, robots_txt_url := "http://h/robots.txt".toList,
    access_result := .unavailable, http_status_code := 404 }

/-! ## Helper lemmas -/

theorem pathMatches_nil (path : Str) : pathMatchesRfc9309 path [] = true := by
  simp [pathMatchesRfc9309, matchPattern, strStartsWith]

theorem lowerStr_star : lowerStr ['*'] = ['*'] := by decide

theorem groupsToCheck_star (d : RobotsData) (rs : List Rule) (ua : Str)
    (hg : d.groups = [⟨[['*']], rs⟩]) :
    groupsToCheck d ua = [⟨[['*']], rs⟩] := by
  unfold groupsToCheck matchingGroups wildcardGroups
  rw [hg]
  by_cases h : (lowerStr ua == lowerStr ['*'] ||
      strContains (lowerStr ua) (lowerStr ['*'])) = true
  · simp [List.filter, List.any, h]
  · simp only [Bool.not_eq_true] at h
    simp [List.filter, List.any, h]

theorem codeDecision_eq_amended (rules : List Rule) :
    codeDecision rules = amendedDecision rules := by
  unfold codeDecision amendedDecision
  by_cases h : rules.isEmpty <;> simp only [h, if_true, if_false, Bool.false_eq_true]
  cases ha : (rules.filter fun r => rustLen r.path_pattern ==
      (rules.map fun r => rustLen r.path_pattern).foldr max 0).any fun r => r.rule_type == 1 <;>
    cases hd : (rules.filter fun r => rustLen r.path_pattern ==
      (rules.map fun r => rustLen r.path_pattern).foldr max 0).any fun r => r.rule_type == 2 <;>
    simp [ha, hd]

/-! ## Claim C1 -/

/-- Claim C1 fails on the code: with the wildcard-group policy
`Allow: /ab` / `Disallow: /ab$` and path `/ab`, the code measures the
Disallow pattern at its full raw length (the trailing `$` included) and
denies, while the claim's metric (trailing `$` excluded) ties the two
patterns and allow-on-tie would permit. -/
theorem c1_counterexample :
    isAllowed c1Policy "bot".toList "/ab".toList = false ∧
    claimIsAllowed c1Policy "bot".toList "/ab".toList = true := by decide

/-- Claim C1, amended: `is_allowed` returns the decision obtained by
retaining, among the candidate rules of the selected groups whose pattern
matches the path, exactly those whose raw-pattern byte length — `*` and
any trailing `$` included — is maximal, returning true if any retained
rule is Allow, false if none is Allow and some is Disallow, and true if
no rule matched at all. -/
theorem c1_amended_longest_match (d : RobotsData) (ua path : Str) :
    isAllowed d ua path = amendedIsAllowed d ua path := by
  unfold isAllowed amendedIsAllowed
  by_cases h : (groupsToCheck d ua).isEmpty <;>
    simp only [h, if_true, if_false, codeDecision_eq_amended]

/-! ## Claim C3 -/

/-- Claim C3 fails on the code: the empty pattern prefix-matches every
path (`starts_with("")`), so a policy whose only rule is an empty-pattern
Disallow denies `/x` instead of allowing every path. -/
theorem c3_counterexample :
    pathMatchesRfc9309 "/x".toList [] = true ∧
    isAllowed emptyDisallowPolicy "MyBot".toList "/x".toList = false := by decide

/-- Claim C3, amended: in the matcher an empty `path_pattern` matches
every path (it is an empty prefix), so a policy whose only rule is an
empty-pattern Disallow denies every path for every user agent, and one
whose only rule is an empty-pattern Allow allows every path; filtering
out empty directives is the external line parser's task, not the
matcher's. -/
theorem c3_amended_empty_pattern (ua path : Str) :
    pathMatchesRfc9309 path [] = true ∧
    isAllowed emptyDisallowPolicy ua path = false ∧
    isAllowed emptyAllowPolicy ua path = true := by
  have h1 := groupsToCheck_star emptyDisallowPolicy [⟨2, []⟩] ua rfl
  have h2 := groupsToCheck_star emptyAllowPolicy [⟨1, []⟩] ua rfl
  refine ⟨pathMatches_nil path, ?_, ?_⟩
  · unfold isAllowed candidateRules allRules
    rw [h1]
    simp [List.filter, List.flatten, pathMatches_nil, codeDecision, rustLen]
  · unfold isAllowed candidateRules allRules
    rw [h2]
    simp [List.filter, List.flatten, pathMatches_nil, codeDecision, rustLen]

theorem strEndsWith_nil (path : Str) : strEndsWith path [] = true := by
  simp [strEndsWith]

theorem splitStar_ne_nil (s : Str) : splitStar s ≠ [] := by
  cases s with
  | nil => simp [splitStar]
  | cons c t =>
    simp only [splitStar]
    by_cases h : (c == '*') = true
    · simp [h]
    · simp only [h, if_false]
      cases hsp : splitStar t <;> simp

theorem splitStar_length (s : Str) : (splitStar s).length = s.count '*' + 1 := by
  induction s with
  | nil => simp [splitStar]
  | cons c t ih =>
    by_cases h : (c == '*') = true
    · have hc : c = '*' := by simpa using h
      subst hc
      simp [splitStar, List.count_cons, ih]
    · have hc : c ≠ '*' := by simpa using h
      simp only [splitStar, h, if_false]
      cases hsp : splitStar t with
      | nil => exact absurd hsp (splitStar_ne_nil t)
      | cons p r =>
        have h2 := ih
        rw [hsp] at h2
        simp only [List.length_cons] at h2 ⊢
        simp [List.count_cons, hc, ← h2]

theorem wmLoop_nil (path : Str) (a : Bool) (n i pos : Nat) :
    wmLoop path a n [] i pos = true := rfl

theorem wmLoop_cons (path : Str) (a : Bool) (n : Nat) (part : Str)
    (rest : List Str) (i pos : Nat) :
    wmLoop path a n (part :: rest) i pos =
      (if part == [] then wmLoop path a n rest (i + 1) pos
       else if i == 0 then
         (if strStartsWith path part then wmLoop path a n rest (i + 1) part.length
          else false)
       else if i == n - 1 && a then
         (if strEndsWith path part then wmLoop path a n rest (i + 1) pos else false)
       else
         match strFind (path.drop pos) part with
         | some found => wmLoop path a n rest (i + 1) (pos + found + part.length)
         | none => false) := rfl

theorem amendSegScan_last (path s : Str) (pos : Nat) :
    amendSegScan path [s] pos = strEndsWith path s := rfl

theorem amendSegScan_cons (path s s2 : Str) (r : List Str) (pos : Nat) :
    amendSegScan path (s :: s2 :: r) pos =
      (if s == [] then amendSegScan path (s2 :: r) pos
       else
         match strFind (path.drop pos) s with
         | some j => amendSegScan path (s2 :: r) (pos + j + s.length)
         | none => false) := rfl

theorem wmLoop_eq_amendScan (path : Str) (n : Nat) (rest : List Str) :
    ∀ (i pos : Nat), 1 ≤ i → i + rest.length = n →
      wmLoop path true n rest i pos = amendSegScan path rest pos := by
  induction rest with
  | nil => intro i pos _ _; rfl
  | cons part rest' ih =>
    intro i pos h1 h2
    have h2' : i + (rest'.length + 1) = n := by simpa using h2
    rw [wmLoop_cons]
    have hi : (i == 0) = false := by simp; omega
    cases rest' with
    | nil =>
      have h2n : i + 1 = n := by simpa using h2'
      have hlast : (i == n - 1 && true) = true := by simp; omega
      rw [amendSegScan_last]
      by_cases hp : (part == []) = true
      · have hpe : part = [] := by simpa using hp
        subst hpe
        simp [wmLoop_nil, strEndsWith_nil]
      · simp only [hp, hi, hlast, if_false, if_true, Bool.false_eq_true]
        cases strEndsWith path part <;> simp [wmLoop_nil]
    | cons part2 rest'' =>
      rw [amendSegScan_cons]
      have hlast : (i == n - 1 && true) = false := by
        simp only [List.length_cons] at h2'
        simp
        omega
      by_cases hp : (part == []) = true
      · rw [if_pos hp, if_pos hp]
        exact ih (i + 1) pos (by omega) (by simp only [List.length_cons] at h2' ⊢; omega)
      · simp only [hp, hi, hlast, if_false, Bool.false_eq_true]
        cases hf : strFind (path.drop pos) part with
        | none => rfl
        | some j =>
          exact ih (i + 1) (pos + j + part.length) (by omega)
            (by simp only [List.length_cons] at h2' ⊢; omega)

theorem wildcardDollar_eq_amend (path pattern : Str)
    (hstar : '*' ∈ pattern) (hdollar : pattern.getLast? = some '$') :
    pathMatchesRfc9309 path pattern = amendWildcardDollar path pattern := by
  have hne : pattern ≠ [] := by intro h; subst h; simp at hdollar
  have hlastc : pattern.getLast hne = '$' := by
    have h := List.getLast?_eq_getLast pattern hne
    rw [h] at hdollar
    exact Option.some.inj hdollar
  have hstar' : '*' ∈ pattern.dropLast := by
    have hcat : pattern.dropLast ++ [pattern.getLast hne] = pattern :=
      List.dropLast_append_getLast hne
    rw [← hcat] at hstar
    rcases List.mem_append.mp hstar with h | h
    · exact h
    · rw [hlastc] at h
      simp at h
  have hcont : pattern.dropLast.contains '*' = true := by
    simpa [List.contains] using hstar'
  have hcount : 0 < pattern.dropLast.count '*' := List.count_pos_iff.mpr hstar'
  rw [pathMatchesRfc9309, hdollar]
  simp only [beq_self_eq_true, if_true]
  rw [matchPattern, hcont]
  simp only [if_true]
  cases hsp : splitStar pattern.dropLast with
  | nil => exact absurd hsp (splitStar_ne_nil _)
  | cons p0 rest =>
    have hlen : (p0 :: rest).length = pattern.dropLast.count '*' + 1 := by
      rw [← hsp]; exact splitStar_length _
    cases rest with
    | nil => simp at hlen; omega
    | cons r1 rest2 =>
      rw [wildcardMatch, amendWildcardDollar, hsp]
      simp only []
      have hne2 : (p0 :: r1 :: rest2 : List Str) ≠ [] := by simp
      have hbeq : ((p0 :: r1 :: rest2 : List Str) == []) = false := by
        simp
      have hlen1 : ((p0 :: r1 :: rest2 : List Str).length == 1) = false := by
        simp
      rw [hbeq, hlen1]
      simp only [if_false, Bool.false_eq_true]
      rw [wmLoop_cons]
      by_cases hp0 : (p0 == []) = true
      · rw [if_pos hp0, if_pos hp0]
        exact wmLoop_eq_amendScan path _ _ 1 0 (by omega) (by simp; omega)
      · simp only [hp0, if_false, Bool.false_eq_true]
        have h00 : ((0 : Nat) == 0) = true := by simp
        rw [if_pos h00]
        cases hsw : strStartsWith path p0 with
        | false => simp
        | true =>
          simp only [if_true]
          exact wmLoop_eq_amendScan path _ _ 1 p0.length (by omega) (by simp; omega)

/-! ## Claim C4 -/

/-- Claim C4 fails on the code: for pattern `/a*ab$` and path `/ab`, the
scanning placement of the claim cannot place the final segment `ab` at or
after the cursor left by `/a` while ending the path, yet the source's
`ends_with` check ignores the cursor and accepts, reusing the already
consumed path byte `a`. -/
theorem c4_counterexample :
    pathMatchesRfc9309 "/ab".toList "/a*ab$".toList = true ∧
    claimWildcardDollar "/ab".toList "/a*ab$".toList = false := by decide

/-- Claim C4, amended: for every pattern containing `*` and ending in `$`,
the pattern matches a path iff the literal segments can be placed left to
right by scanning — the first segment at path start, each middle segment
at or after the current scan position — with the final literal segment
merely required to be a suffix of the path: it may overlap path bytes
already consumed by earlier segments. -/
theorem c4_amended_anchor_suffix (path pattern : Str)
    (hstar : '*' ∈ pattern) (hdollar : pattern.getLast? = some '$') :
    pathMatchesRfc9309 path pattern = amendWildcardDollar path pattern :=
  wildcardDollar_eq_amend path pattern hstar hdollar

/-- Witness for the amended claim C4 at pattern `/*.pdf$`, path `/a/b.pdf`. -/
theorem c4_amended_anchor_suffix_witness :
    ('*' ∈ "/*.pdf$".toList ∧ "/*.pdf$".toList.getLast? = some '$') ∧
      pathMatchesRfc9309 "/a/b.pdf".toList "/*.pdf$".toList =
        amendWildcardDollar "/a/b.pdf".toList "/*.pdf$".toList :=
  ⟨⟨by decide, by decide⟩,
    c4_amended_anchor_suffix "/a/b.pdf".toList "/*.pdf$".toList (by decide) (by decide)⟩

theorem utf8LossyCore_cont (t : List Nat) :
    (match t with | [] => ([] : List Nat) | x :: xs => utf8LossyCore x xs) =
      utf8Lossy t := by
  cases t <;> rfl

theorem utf8LossyCore_eq (b : Nat) (rest : List Nat) :
    utf8LossyCore b rest =
      (if b < 128 then
        b :: (match rest with | [] => [] | x :: xs => utf8LossyCore x xs)
      else if 194 ≤ b ∧ b ≤ 223 then
        match rest with
        | [] => replBytes
        | c :: rest2 =>
          if isCont c then
            b :: c :: (match rest2 with | [] => [] | x :: xs => utf8LossyCore x xs)
          else replBytes ++ utf8LossyCore c rest2
      else if 224 ≤ b ∧ b ≤ 239 then
        match rest with
        | [] => replBytes
        | c :: rest2 =>
          if valid3Pair b c then
            match rest2 with
            | [] => replBytes
            | d :: rest3 =>
              if isCont d then
                b :: c :: d :: (match rest3 with | [] => [] | x :: xs => utf8LossyCore x xs)
              else replBytes ++ utf8LossyCore d rest3
          else replBytes ++ utf8LossyCore c rest2
      else if 240 ≤ b ∧ b ≤ 244 then
        match rest with
        | [] => replBytes
        | c :: rest2 =>
          if valid4Pair b c then
            match rest2 with
            | [] => replBytes
            | d :: rest3 =>
              if isCont d then
                match rest3 with
                | [] => replBytes
                | e :: rest4 =>
                  if isCont e then
                    b :: c :: d :: e ::
                      (match rest4 with | [] => [] | x :: xs => utf8LossyCore x xs)
                  else replBytes ++ utf8LossyCore e rest4
              else replBytes ++ utf8LossyCore d rest3
          else replBytes ++ utf8LossyCore c rest2
      else
        match rest with
        | [] => replBytes
        | x :: xs => replBytes ++ utf8LossyCore x xs) := by
  rw [utf8LossyCore.eq_def]

theorem utf8Lossy_ascii {b : Nat} (l : List Nat) (h : b < 128) :
    utf8Lossy (b :: l) = b :: utf8Lossy l := by
  show utf8LossyCore b l = b :: utf8Lossy l
  rw [utf8LossyCore_eq]
  rw [if_pos h, utf8LossyCore_cont]

theorem utf8Lossy_two {b c : Nat} (l : List Nat) (h1 : 194 ≤ b) (h2 : b ≤ 223)
    (hc : isCont c = true) :
    utf8Lossy (b :: c :: l) = b :: c :: utf8Lossy l := by
  show utf8LossyCore b (c :: l) = b :: c :: utf8Lossy l
  rw [utf8LossyCore_eq]
  rw [if_neg (by omega), if_pos (by omega : 194 ≤ b ∧ b ≤ 223)]
  show (if isCont c then b :: c ::
      (match l with | [] => [] | x :: xs => utf8LossyCore x xs)
    else replBytes ++ utf8LossyCore c l) = b :: c :: utf8Lossy l
  rw [if_pos hc, utf8LossyCore_cont]

theorem utf8Lossy_three {b c d : Nat} (l : List Nat) (h1 : 224 ≤ b) (h2 : b ≤ 239)
    (hp : valid3Pair b c = true) (hd : isCont d = true) :
    utf8Lossy (b :: c :: d :: l) = b :: c :: d :: utf8Lossy l := by
  show utf8LossyCore b (c :: d :: l) = b :: c :: d :: utf8Lossy l
  rw [utf8LossyCore_eq]
  rw [if_neg (by omega), if_neg (by omega), if_pos (by omega : 224 ≤ b ∧ b ≤ 239)]
  show (if valid3Pair b c then
      (match (d :: l : List Nat) with
       | [] => replBytes
       | d2 :: rest3 =>
         if isCont d2 then b :: c :: d2 ::
             (match rest3 with | [] => [] | x :: xs => utf8LossyCore x xs)
         else replBytes ++ utf8LossyCore d2 rest3)
    else replBytes ++ utf8LossyCore c (d :: l)) = b :: c :: d :: utf8Lossy l
  rw [if_pos hp]
  show (if isCont d then b :: c :: d ::
      (match l with | [] => [] | x :: xs => utf8LossyCore x xs)
    else replBytes ++ utf8LossyCore d l) = b :: c :: d :: utf8Lossy l
  rw [if_pos hd, utf8LossyCore_cont]

theorem utf8Lossy_four {b c d e : Nat} (l : List Nat) (h1 : 240 ≤ b) (h2 : b ≤ 244)
    (hp : valid4Pair b c = true) (hd : isCont d = true) (he : isCont e = true) :
    utf8Lossy (b :: c :: d :: e :: l) = b :: c :: d :: e :: utf8Lossy l := by
  show utf8LossyCore b (c :: d :: e :: l) = b :: c :: d :: e :: utf8Lossy l
  rw [utf8LossyCore_eq]
  rw [if_neg (by omega), if_neg (by omega), if_neg (by omega),
    if_pos (by omega : 240 ≤ b ∧ b ≤ 244)]
  show (if valid4Pair b c then
      (match (d :: e :: l : List Nat) with
       | [] => replBytes
       | d2 :: rest3 =>
         if isCont d2 then
           (match rest3 with
            | [] => replBytes
            | e2 :: rest4 =>
              if isCont e2 then b :: c :: d2 :: e2 ::
                  (match rest4 with | [] => [] | x :: xs => utf8LossyCore x xs)
              else replBytes ++ utf8LossyCore e2 rest4)
         else replBytes ++ utf8LossyCore d2 rest3)
    else replBytes ++ utf8LossyCore c (d :: e :: l)) = b :: c :: d :: e :: utf8Lossy l
  rw [if_pos hp]
  show (if isCont d then
      (match (e :: l : List Nat) with
       | [] => replBytes
       | e2 :: rest4 =>
         if isCont e2 then b :: c :: d :: e2 ::
             (match rest4 with | [] => [] | x :: xs => utf8LossyCore x xs)
         else replBytes ++ utf8LossyCore e2 rest4)
    else replBytes ++ utf8LossyCore d (e :: l)) = b :: c :: d :: e :: utf8Lossy l
  rw [if_pos hd]
  show (if isCont e then b :: c :: d :: e ::
      (match l with | [] => [] | x :: xs => utf8LossyCore x xs)
    else replBytes ++ utf8LossyCore e l) = b :: c :: d :: e :: utf8Lossy l
  rw [if_pos he, utf8LossyCore_cont]

theorem utf8Lossy_255 (l : List Nat) :
    utf8Lossy (255 :: l) = replBytes ++ utf8Lossy l := by
  show utf8LossyCore 255 l = replBytes ++ utf8Lossy l
  rw [utf8LossyCore_eq]
  rw [if_neg (by omega), if_neg (by omega), if_neg (by omega), if_neg (by omega)]
  cases l <;> simp [utf8Lossy, replBytes]

theorem utf8Lossy_of_validU {l : List Nat} (h : ValidU l) : utf8Lossy l = l := by
  induction h with
  | nil => rfl
  | ascii b rest hb _ ih => rw [utf8Lossy_ascii rest hb, ih]
  | two b c rest h1 h2 hc _ ih => rw [utf8Lossy_two rest h1 h2 hc, ih]
  | three b c d rest h1 h2 hp hd _ ih => rw [utf8Lossy_three rest h1 h2 hp hd, ih]
  | four b c d e rest h1 h2 hp hd he _ ih => rw [utf8Lossy_four rest h1 h2 hp hd he, ih]

theorem validU_take_nl {l : List Nat} (h : ValidU l) :
    ∀ i, l.get? i = some 10 → ValidU (l.take (i + 1)) := by
  induction h with
  | nil => intro i hi; simp at hi
  | ascii b rest hb _ ih =>
    intro i hi
    match i with
    | 0 =>
      simp only [List.get?] at hi
      have hb10 : b = 10 := by simpa using hi
      subst hb10
      exact .ascii 10 _ (by omega) .nil
    | (j + 1) =>
      simp only [List.get?] at hi
      exact .ascii b _ hb (ih j hi)
  | two b c rest h1 h2 hc _ ih =>
    intro i hi
    match i with
    | 0 =>
      simp only [List.get?] at hi
      have hb10 : b = 10 := by simpa using hi
      exact absurd hb10 (by omega)
    | 1 =>
      simp only [List.get?] at hi
      have hc10 : c = 10 := by simpa using hi
      subst hc10
      simp [isCont] at hc
    | (j + 2) =>
      simp only [List.get?] at hi
      exact .two b c _ h1 h2 hc (ih j hi)
  | three b c d rest h1 h2 hp hd _ ih =>
    intro i hi
    match i with
    | 0 =>
      simp only [List.get?] at hi
      have hb10 : b = 10 := by simpa using hi
      exact absurd hb10 (by omega)
    | 1 =>
      simp only [List.get?] at hi
      have hc10 : c = 10 := by simpa using hi
      subst hc10
      simp only [valid3Pair, decide_eq_true_eq] at hp
      exact absurd hp (by omega)
    | 2 =>
      simp only [List.get?] at hi
      have hd10 : d = 10 := by simpa using hi
      subst hd10
      simp [isCont] at hd
    | (j + 3) =>
      simp only [List.get?] at hi
      exact .three b c d _ h1 h2 hp hd (ih j hi)
  | four b c d e rest h1 h2 hp hd he _ ih =>
    intro i hi
    match i with
    | 0 =>
      simp only [List.get?] at hi
      have hb10 : b = 10 := by simpa using hi
      exact absurd hb10 (by omega)
    | 1 =>
      simp only [List.get?] at hi
      have hc10 : c = 10 := by simpa using hi
      subst hc10
      simp only [valid4Pair, decide_eq_true_eq] at hp
      exact absurd hp (by omega)
    | 2 =>
      simp only [List.get?] at hi
      have hd10 : d = 10 := by simpa using hi
      subst hd10
      simp [isCont] at hd
    | 3 =>
      simp only [List.get?] at hi
      have he10 : e = 10 := by simpa using hi
      subst he10
      simp [isCont] at he
    | (j + 4) =>
      simp only [List.get?] at hi
      exact .four b c d e _ h1 h2 hp hd he (ih j hi)

theorem validU_ascii {l : List Nat} (h : ∀ b ∈ l, b < 128) : ValidU l := by
  induction l with
  | nil => exact .nil
  | cons b t ih =>
    exact .ascii b t (h b (by simp)) (ih fun x hx => h x (by simp [hx]))

theorem strTruncate_zero (s : List Nat) : strTruncate s 0 = some [] := by
  unfold strTruncate
  rw [if_pos (Nat.zero_le _)]
  rw [if_pos (by simp [isCharBoundary])]
  rfl

theorem strTruncate_of_get_nl {s : List Nat} {j : Nat} (h : s.get? j = some 10) :
    strTruncate s j = some (s.take j) := by
  have hj : j < s.length := by
    by_contra hge
    rw [List.get?_eq_none.mpr (by omega)] at h
    simp at h
  unfold strTruncate
  rw [if_pos (by omega)]
  have hb : isCharBoundary s j = true := by
    unfold isCharBoundary
    rw [h]
    simp [isCont]
  rw [if_pos hb]

theorem utf8Lossy_repl255_len : ∀ (n : Nat) (l : List Nat),
    (utf8Lossy (List.replicate n 255 ++ l)).length = 3 * n + (utf8Lossy l).length := by
  intro n
  induction n with
  | zero => intro l; simp
  | succ m ih =>
    intro l
    rw [List.replicate_succ, List.cons_append, utf8Lossy_255, List.length_append, ih]
    simp [replBytes]
    omega

theorem rpositionNl_append_some (a : List Nat) {b : List Nat} {i : Nat}
    (h : rpositionNl b = some i) :
    rpositionNl (a ++ b) = some (a.length + i) := by
  induction a with
  | nil => simpa using h
  | cons c t ih =>
    rw [List.cons_append]
    simp only [rpositionNl, List.append_eq, ih]
    simp only [Option.some.injEq, List.length_cons]
    omega

theorem rpositionNl_append_none (a : List Nat) {b : List Nat}
    (h : rpositionNl b = none) :
    rpositionNl (a ++ b) = rpositionNl a := by
  induction a with
  | nil => simpa using h
  | cons c t ih =>
    rw [List.cons_append]
    simp only [rpositionNl, List.append_eq, ih]

theorem rpositionNl_some {l : List Nat} {i : Nat} (h : rpositionNl l = some i) :
    i < l.length ∧ l.get? i = some 10 := by
  induction l generalizing i with
  | nil => simp [rpositionNl] at h
  | cons b t ih =>
    simp only [rpositionNl] at h
    cases ht : rpositionNl t with
    | some j =>
      rw [ht] at h
      simp only [Option.some.injEq] at h
      subst h
      obtain ⟨h1, h2⟩ := ih ht
      exact ⟨by simpa using Nat.succ_lt_succ h1, by simpa using h2⟩
    | none =>
      rw [ht] at h
      by_cases hb : (b == 10) = true
      · simp only [hb, if_true, Option.some.injEq] at h
        subst h
        have : b = 10 := by simpa using hb
        subst this
        simp
      · simp [hb] at h

theorem rpositionNl_none {l : List Nat} (h : rpositionNl l = none) : ¬ 10 ∈ l := by
  induction l with
  | nil => simp
  | cons b t ih =>
    simp only [rpositionNl] at h
    cases ht : rpositionNl t with
    | some j => simp [ht] at h
    | none =>
      rw [ht] at h
      by_cases hb : (b == 10) = true
      · simp [hb] at h
      · have hbne : b ≠ 10 := by simpa using hb
        simp only [List.mem_cons, not_or]
        exact ⟨fun he => hbne he.symm, ih ht⟩

theorem rpositionNl_replicate {b : Nat} (n : Nat) (h : b ≠ 10) :
    rpositionNl (List.replicate n b) = none := by
  induction n with
  | zero => rfl
  | succ m ih =>
    simp only [List.replicate, rpositionNl, ih]
    simp [h]

theorem readBody_cons_bytes (st : Nat) (chunk : List Nat) (rest : List StreamItem)
    (body : List Nat) (total lastNewline : Nat) :
    readBody st (.bytes chunk :: rest) body total lastNewline =
      (if total + chunk.length > MAX_ROBOTS_TXT_SIZE then
        match rpositionNl (chunk.take (MAX_ROBOTS_TXT_SIZE - total)) with
        | some lastNl =>
          .ok (body ++
            utf8Lossy ((chunk.take (MAX_ROBOTS_TXT_SIZE - total)).take (lastNl + 1))) true
        | none =>
          match strTruncate body lastNewline with
          | some body2 => .ok body2 true
          | none => .panicked
      else
        readBody st rest (body ++ utf8Lossy chunk) (total + chunk.length)
          (match rpositionNl chunk with
           | some pos => body.length + pos
           | none => lastNewline)) := rfl

theorem readBody_trunc (st : Nat) (chunks : List (List Nat)) :
    ∀ body : List Nat,
      body.length ≤ MAX_ROBOTS_TXT_SIZE →
      MAX_ROBOTS_TXT_SIZE < body.length + sumLens chunks →
      (∀ c ∈ chunks, ValidU c) →
      ∃ res : List Nat,
        readBody st (chunks.map .bytes) body body.length ((rpositionNl body).getD 0) =
          .ok res true ∧
        res.length ≤ MAX_ROBOTS_TXT_SIZE ∧
        res = (body ++ chunks.flatten).take res.length ∧
        (res.getLast? = some 10 ∨
         (body ++ chunks.flatten).get? res.length = some 10 ∨
         (res = [] ∧ ¬ 10 ∈ (body ++ chunks.flatten).take MAX_ROBOTS_TXT_SIZE)) := by
  induction chunks with
  | nil =>
    intro body hle hgt _
    simp [sumLens] at hgt
    omega
  | cons chunk rest ih =>
    intro body hle hgt hv
    have hvchunk : ValidU chunk := hv chunk (by simp)
    have hvrest : ∀ c ∈ rest, ValidU c := fun c hc => hv c (by simp [hc])
    have hsum : sumLens (chunk :: rest) = chunk.length + sumLens rest := by
      simp [sumLens]
    simp only [List.map_cons, readBody_cons_bytes]
    by_cases hcross : body.length + chunk.length > MAX_ROBOTS_TXT_SIZE
    · rw [if_pos hcross]
      have hrem : (chunk.take (MAX_ROBOTS_TXT_SIZE - body.length)).length =
          MAX_ROBOTS_TXT_SIZE - body.length := by
        rw [List.length_take]
        omega
      cases hr : rpositionNl (chunk.take (MAX_ROBOTS_TXT_SIZE - body.length)) with
      | some i =>
        obtain ⟨hilt, hget⟩ := rpositionNl_some hr
        rw [hrem] at hilt
        have hi1 : i + 1 ≤ chunk.length := by omega
        have hgetc : chunk.get? i = some 10 := by
          rw [List.get?_take (by omega : i < MAX_ROBOTS_TXT_SIZE - body.length)] at hget
          exact hget
        have htt : (chunk.take (MAX_ROBOTS_TXT_SIZE - body.length)).take (i + 1) =
            chunk.take (i + 1) := by
          rw [List.take_take]
          congr 1
          omega
        have hvtake : ValidU (chunk.take (i + 1)) := validU_take_nl hvchunk i hgetc
        refine ⟨body ++ chunk.take (i + 1), ?_, ?_, ?_, ?_⟩
        · show BodyResult.ok
            (body ++
              utf8Lossy ((chunk.take (MAX_ROBOTS_TXT_SIZE - body.length)).take (i + 1)))
            true = BodyResult.ok (body ++ chunk.take (i + 1)) true
          rw [htt, utf8Lossy_of_validU hvtake]
        · rw [List.length_append, List.length_take]
          have hmin : min (i + 1) chunk.length = i + 1 := by omega
          have hMb : body.length + (MAX_ROBOTS_TXT_SIZE - body.length) =
              MAX_ROBOTS_TXT_SIZE := Nat.add_sub_cancel' hle
          rw [hmin]
          omega
        · rw [List.length_append, List.length_take]
          have hmin : min (i + 1) chunk.length = i + 1 := by omega
          rw [hmin, List.flatten_cons, List.take_append_eq_append_take]
          rw [List.take_of_length_le (by omega : body.length ≤ body.length + (i + 1))]
          have hsub : body.length + (i + 1) - body.length = i + 1 := by omega
          rw [hsub]
          congr 1
          rw [List.take_append_of_le_length (by omega : i + 1 ≤ chunk.length)]
        · left
          have hne : chunk.take (i + 1) ≠ [] := by
            intro hnil
            have hlen := congrArg List.length hnil
            rw [List.length_take] at hlen
            simp only [List.length_nil, Nat.min_eq_zero_iff] at hlen
            omega
          rw [List.getLast?_append_of_ne_nil _ hne]
          rw [List.getLast?_eq_get?]
          rw [List.length_take]
          have hmin : min (i + 1) chunk.length = i + 1 := by omega
          rw [hmin]
          simp only [Nat.add_sub_cancel]
          rw [List.get?_take (by omega : i < i + 1)]
          exact hgetc
      | none =>
        cases hb : rpositionNl body with
        | some j =>
          obtain ⟨hjlt, hjget⟩ := rpositionNl_some hb
          simp only [Option.getD_some]
          rw [strTruncate_of_get_nl hjget]
          refine ⟨body.take j, rfl, ?_, ?_, ?_⟩
          · rw [List.length_take]
            omega
          · rw [List.length_take]
            have hmin : min j body.length = j := by omega
            rw [hmin, List.take_append_of_le_length (by omega : j ≤ body.length)]
          · right; left
            rw [List.length_take]
            have hmin : min j body.length = j := by omega
            rw [hmin, List.get?_append (by omega : j < body.length)]
            exact hjget
        | none =>
          simp only [Option.getD_none]
          rw [strTruncate_zero]
          refine ⟨[], rfl, by simp, by simp, ?_⟩
          right; right
          refine ⟨rfl, ?_⟩
          have hmax : MAX_ROBOTS_TXT_SIZE =
              body.length + (MAX_ROBOTS_TXT_SIZE - body.length) := by
            omega
          rw [List.flatten_cons, hmax, List.take_append_eq_append_take]
          rw [List.take_of_length_le
            (by omega : body.length ≤ body.length + (MAX_ROBOTS_TXT_SIZE - body.length))]
          have : body.length + (MAX_ROBOTS_TXT_SIZE - body.length) - body.length =
              MAX_ROBOTS_TXT_SIZE - body.length := by omega
          rw [this, List.take_append_of_le_length
            (by omega : MAX_ROBOTS_TXT_SIZE - body.length ≤ chunk.length)]
          intro hmem
          rcases List.mem_append.mp hmem with h | h
          · exact rpositionNl_none hb h
          · exact rpositionNl_none hr h
    · rw [if_neg hcross]
      rw [utf8Lossy_of_validU hvchunk]
      have hlast : (match rpositionNl chunk with
          | some pos => body.length + pos
          | none => (rpositionNl body).getD 0) = (rpositionNl (body ++ chunk)).getD 0 := by
        cases hc : rpositionNl chunk with
        | some pos => rw [rpositionNl_append_some body hc]; rfl
        | none => rw [rpositionNl_append_none body hc]
      have hlen : body.length + chunk.length = (body ++ chunk).length := by
        rw [List.length_append]
      rw [hlast, hlen]
      obtain ⟨res, h1, h2, h3, h4⟩ := ih (body ++ chunk)
        (by rw [List.length_append]; omega)
        (by rw [List.length_append]; rw [hsum] at hgt; omega)
        hvrest
      refine ⟨res, h1, h2, ?_, ?_⟩
      · rw [List.flatten_cons, ← List.append_assoc]
        exact h3
      · rw [List.flatten_cons, ← List.append_assoc]
        exact h4

theorem c2Chunks_valid : ∀ c ∈ c2Chunks, ValidU c := by
  intro c hc
  unfold c2Chunks at hc
  simp only [List.mem_cons, List.not_mem_nil, or_false] at hc
  rcases hc with hc | hc <;> subst hc
  · exact validU_ascii (by intro b hb; fin_cases hb <;> omega)
  · exact validU_ascii (by
      intro b hb
      rw [List.eq_of_mem_replicate hb]
      omega)

theorem readBody_c2Chunks_eval :
    readBody 200 (c2Chunks.map .bytes) [] 0 0 = .ok [97] true := by
  have hpart : (List.replicate 563200 (120 : Nat)).take (MAX_ROBOTS_TXT_SIZE - 2) =
      List.replicate 563198 (120 : Nat) := by
    rw [List.take_replicate]
    norm_num [MAX_ROBOTS_TXT_SIZE]
  have hnone : rpositionNl (List.replicate 563198 (120 : Nat)) = none :=
    rpositionNl_replicate _ (by norm_num)
  rw [show c2Chunks.map StreamItem.bytes =
    [.bytes [97, 10], .bytes (List.replicate 563200 120)] from rfl]
  rw [readBody_cons_bytes]
  rw [if_neg (by decide)]
  show readBody 200 [.bytes (List.replicate 563200 120)] [97, 10] 2 1 = .ok [97] true
  rw [readBody_cons_bytes]
  rw [if_pos (by rw [List.length_replicate]; norm_num [MAX_ROBOTS_TXT_SIZE]), hpart, hnone]
  rfl

theorem c2BadChunks_sum : MAX_ROBOTS_TXT_SIZE < sumLens c2BadChunks := by
  unfold sumLens c2BadChunks
  rw [List.map_cons, List.map_nil, List.length_append, List.length_replicate]
  simp [MAX_ROBOTS_TXT_SIZE]

theorem readBody_c2BadChunks :
    readBody 200 (c2BadChunks.map .bytes) [] 0 0 =
      .ok (utf8Lossy (List.replicate 563199 255 ++ [10])) true := by
  rw [show c2BadChunks.map StreamItem.bytes =
    [.bytes (List.replicate 563199 255 ++ [10, 97])] from rfl]
  rw [readBody_cons_bytes]
  rw [if_pos (by
    rw [List.length_append, List.length_replicate]
    norm_num [MAX_ROBOTS_TXT_SIZE])]
  have hpart : ((List.replicate 563199 (255 : Nat) ++ [10, 97]).take
      (MAX_ROBOTS_TXT_SIZE - 0)) = List.replicate 563199 (255 : Nat) ++ [10] := by
    rw [List.take_append_eq_append_take, List.length_replicate]
    rw [List.take_of_length_le (by rw [List.length_replicate]; norm_num [MAX_ROBOTS_TXT_SIZE])]
    congr 1
  rw [hpart]
  have hrp : rpositionNl (List.replicate 563199 (255 : Nat) ++ [10]) = some 563199 := by
    have h0 : rpositionNl [(10 : Nat)] = some 0 := rfl
    have h1 := rpositionNl_append_some (List.replicate 563199 (255 : Nat)) h0
    rw [List.length_replicate, Nat.add_zero] at h1
    exact h1
  rw [hrp]
  have htk : (List.replicate 563199 (255 : Nat) ++ [10]).take (563199 + 1) =
      List.replicate 563199 (255 : Nat) ++ [10] := by
    apply List.take_of_length_le
    rw [List.length_append, List.length_replicate]
    norm_num
  show BodyResult.ok
      ([] ++ utf8Lossy ((List.replicate 563199 (255 : Nat) ++ [10]).take (563199 + 1))) true =
    BodyResult.ok (utf8Lossy (List.replicate 563199 255 ++ [10])) true
  rw [htk, List.nil_append]

theorem c2BadBody_len : MAX_ROBOTS_TXT_SIZE <
    (utf8Lossy (List.replicate 563199 255 ++ [10])).length := by
  rw [utf8Lossy_repl255_len]
  norm_num [MAX_ROBOTS_TXT_SIZE, show utf8Lossy [10] = [10] from rfl]

theorem c2PanicChunks_sum : MAX_ROBOTS_TXT_SIZE < sumLens c2PanicChunks := by
  unfold sumLens c2PanicChunks
  rw [List.map_cons, List.map_cons, List.map_nil, List.length_replicate]
  simp [MAX_ROBOTS_TXT_SIZE]

theorem readBody_c2PanicChunks :
    readBody 200 (c2PanicChunks.map .bytes) [] 0 0 = .panicked := by
  have hpart : (List.replicate 563199 (120 : Nat)).take (MAX_ROBOTS_TXT_SIZE - 2) =
      List.replicate 563198 (120 : Nat) := by
    rw [List.take_replicate]
    norm_num [MAX_ROBOTS_TXT_SIZE]
  have hnone : rpositionNl (List.replicate 563198 (120 : Nat)) = none :=
    rpositionNl_replicate _ (by norm_num)
  rw [show c2PanicChunks.map StreamItem.bytes =
    [.bytes [255, 10], .bytes (List.replicate 563199 120)] from rfl]
  rw [readBody_cons_bytes]
  rw [if_neg (by decide)]
  show readBody 200 [.bytes (List.replicate 563199 120)] [239, 191, 189, 10] 2 1 = .panicked
  rw [readBody_cons_bytes]
  rw [if_pos (by rw [List.length_replicate]; norm_num [MAX_ROBOTS_TXT_SIZE]), hpart, hnone]
  rfl

/-- Claim C2, amended: for every stream of byte chunks that are each
valid UTF-8, if the total exceeds the 563200-byte cap the loop reports
`truncated = true` and the stored body is a prefix of the stream of
length at most the cap that either ends with `\n`, or is cut back to
just before the last previously seen `\n` (the cut excludes that
newline), or is empty with no `\n` in the first 563200 bytes; outside
that scope the bounds fail: the per-chunk lossy decode can expand the
stored body past the cap with replacement characters, and
`body.truncate(last_newline)` indexes the decoded body with a raw-chunk
offset and can panic off a char boundary. -/
theorem c2_amended_truncation :
    (∀ (st : Nat) (chunks : List (List Nat)) (body : List Nat) (tr : Bool),
      (∀ c ∈ chunks, ValidU c) →
      MAX_ROBOTS_TXT_SIZE < sumLens chunks →
      readBody st (chunks.map .bytes) [] 0 0 = .ok body tr →
      tr = true ∧ body.length ≤ MAX_ROBOTS_TXT_SIZE ∧
      body = chunks.flatten.take body.length ∧
      (body.getLast? = some 10 ∨
       chunks.flatten.get? body.length = some 10 ∨
       (body = [] ∧ ¬ 10 ∈ chunks.flatten.take MAX_ROBOTS_TXT_SIZE))) ∧
    (∃ (chunks : List (List Nat)) (body : List Nat),
      MAX_ROBOTS_TXT_SIZE < sumLens chunks ∧
      readBody 200 (chunks.map .bytes) [] 0 0 = .ok body true ∧
      MAX_ROBOTS_TXT_SIZE < body.length) ∧
    (∃ chunks : List (List Nat),
      MAX_ROBOTS_TXT_SIZE < sumLens chunks ∧
      readBody 200 (chunks.map .bytes) [] 0 0 = .panicked) := by
  refine ⟨?_, ?_, ?_⟩
  · intro st chunks body tr hv hbig hrun
    obtain ⟨r, h1, h2, h3, h4⟩ := readBody_trunc st chunks []
      (by simp [MAX_ROBOTS_TXT_SIZE]) (by simpa using hbig) hv
    have h1x : readBody st (chunks.map .bytes) [] 0 0 = BodyResult.ok r true := h1
    rw [hrun] at h1x
    injection h1x with hbr htr
    subst hbr
    subst htr
    simp only [List.nil_append] at h3 h4
    exact ⟨rfl, h2, h3, h4⟩
  · exact ⟨c2BadChunks, utf8Lossy (List.replicate 563199 255 ++ [10]),
      c2BadChunks_sum, readBody_c2BadChunks, c2BadBody_len⟩
  · exact ⟨c2PanicChunks, c2PanicChunks_sum, readBody_c2PanicChunks⟩

theorem c2_sum_lemma : MAX_ROBOTS_TXT_SIZE < sumLens c2Chunks := by
  unfold sumLens c2Chunks
  rw [List.map_cons, List.map_cons, List.map_nil, List.length_replicate]
  simp [MAX_ROBOTS_TXT_SIZE]

/-- Claim C2 fails on the code: after the chunks `"a\n"` and a
newline-free cap-crossing chunk, `body.truncate(last_newline)` cuts the
body back to just before the newline, so fetch stores `"a"` — a body that
neither ends on a `\n` boundary nor is empty although a `\n` was
observed. -/
theorem c2_counterexample :
    MAX_ROBOTS_TXT_SIZE < sumLens c2Chunks ∧
    readBody 200 (c2Chunks.map .bytes) [] 0 0 = .ok [97] true ∧
    ([97] : List Nat).getLast? ≠ some 10 ∧ ([97] : List Nat) ≠ [] :=
  ⟨c2_sum_lemma, readBody_c2Chunks_eval, by decide, by decide⟩

/-- Witness for the amended claim C2 on the concrete valid-UTF-8 chunk
stream `c2Chunks`. -/
theorem c2_amended_truncation_witness :
    (∀ c ∈ c2Chunks, ValidU c) ∧ MAX_ROBOTS_TXT_SIZE < sumLens c2Chunks ∧
    (true = true ∧ ([97] : List Nat).length ≤ MAX_ROBOTS_TXT_SIZE ∧
     ([97] : List Nat) = c2Chunks.flatten.take ([97] : List Nat).length ∧
     (([97] : List Nat).getLast? = some 10 ∨
      c2Chunks.flatten.get? ([97] : List Nat).length = some 10 ∨
      (([97] : List Nat) = [] ∧ ¬ 10 ∈ c2Chunks.flatten.take MAX_ROBOTS_TXT_SIZE))) :=
  ⟨c2Chunks_valid, c2_sum_lemma,
    c2_amended_truncation.1 200 c2Chunks [97] true c2Chunks_valid c2_sum_lemma
      readBody_c2Chunks_eval⟩

theorem readBody_err (st : Nat) (stream : List StreamItem) :
    ∀ body total lastNl e, readBody st stream body total lastNl = .ioErr e →
      ∃ msg, e = .unreachable msg (some st) := by
  induction stream with
  | nil => intro body total lastNl e h; simp [readBody] at h
  | cons item rest ih =>
    intro body total lastNl e h
    cases item with
    | ioError msg =>
      refine ⟨msg, ?_⟩
      simpa [readBody] using h.symm
    | bytes chunk =>
      rw [readBody_cons_bytes] at h
      by_cases hc : total + chunk.length > MAX_ROBOTS_TXT_SIZE
      · rw [if_pos hc] at h
        cases hr : rpositionNl (chunk.take (MAX_ROBOTS_TXT_SIZE - total)) with
        | some i => rw [hr] at h; simp at h
        | none =>
          rw [hr] at h
          cases hs : strTruncate body lastNl with
          | some b2 => rw [hs] at h; simp at h
          | none => rw [hs] at h; simp at h
      · rw [if_neg hc] at h
        exact ih _ _ _ _ h

theorem extractRobotsUrl_err (u : Str) (e : FetchErrorModel)
    (h : extractRobotsUrl u = .error e) : ∃ msg, e = .invalidUrl msg := by
  unfold extractRobotsUrl at h
  repeat' split at h
  all_goals first
    | exact ⟨_, (Except.error.inj h).symm⟩
    | simp at h

theorem fetchModel_ok (parse : List Nat → List UaGroup × List Str)
    (tg : Str) (cl : Nat) (oc : HttpOutcome) (d : RobotsData)
    (h : fetchModel parse tg cl oc = some (.ok d)) :
    d.access_result = .success ∧ 200 ≤ d.http_status_code ∧ d.http_status_code ≤ 299 := by
  unfold fetchModel at h
  split at h
  · simp at h
  · split at h
    · simp at h
    · simp at h
    · split at h
      · split at h
        · simp at h
        · simp at h
        · simp only [Option.some.injEq, Except.ok.injEq] at h
          subst h
          refine ⟨rfl, ?_, ?_⟩ <;> simp only [] <;> omega
      · split at h
        · simp at h
        · split at h
          · simp at h
          · simp at h

theorem fetchModel_unavailable (parse : List Nat → List UaGroup × List Str)
    (tg : Str) (cl : Nat) (oc : HttpOutcome) (s : Nat)
    (h : fetchModel parse tg cl oc = some (.error (.unavailable s))) : 400 ≤ s ∧ s ≤ 499 := by
  unfold fetchModel at h
  repeat' split at h
  all_goals try simp at h
  all_goals try omega
  all_goals first
    | (subst h
       obtain ⟨msg2, hm⟩ := extractRobotsUrl_err _ _ (by assumption)
       simp at hm)
    | (subst h
       obtain ⟨msg2, hm⟩ := readBody_err _ _ _ _ _ _ (by assumption)
       simp at hm)

theorem fetchModel_unreachable (parse : List Nat → List UaGroup × List Str)
    (tg : Str) (cl : Nat) (oc : HttpOutcome) (msg : Str) (so : Option Nat)
    (h : fetchModel parse tg cl oc = some (.error (.unreachable msg so))) :
    so = none ∨ ∃ s, so = some s ∧ ((500 ≤ s ∧ s ≤ 599) ∨ (200 ≤ s ∧ s ≤ 299)) := by
  unfold fetchModel at h
  repeat' split at h
  all_goals try simp at h
  all_goals first
    | (subst h
       obtain ⟨msg2, hm⟩ := extractRobotsUrl_err _ _ (by assumption)
       simp at hm)
    | (subst h
       obtain ⟨msg2, hm⟩ := readBody_err _ _ _ _ _ _ (by assumption)
       simp only [FetchErrorModel.unreachable.injEq] at hm
       right
       exact ⟨_, hm.2, by omega⟩)
    | (left; exact h.2.symm)
    | (right
       exact ⟨_, h.2.symm, by omega⟩)

/-- Claim C5, amended: every snapshot produced by the coordinator on a
cache miss satisfies: Success implies a status in [200,299]; Unavailable
implies [400,499]; Unreachable implies [500,599], 0, or the 2xx status of
a response whose body stream failed mid-read. -/
theorem c5_amended_status_invariant (parse : List Nat → List UaGroup × List Str)
    (rb tg : Str) (cl : Nat) (oc : HttpOutcome) (d : RobotsData)
    (h : getRobotsDataMiss parse rb tg cl oc = some (.ok d)) :
    (d.access_result = .success → 200 ≤ d.http_status_code ∧ d.http_status_code ≤ 299) ∧
    (d.access_result = .unavailable → 400 ≤ d.http_status_code ∧ d.http_status_code ≤ 499) ∧
    (d.access_result = .unreachable →
      (500 ≤ d.http_status_code ∧ d.http_status_code ≤ 599) ∨ d.http_status_code = 0 ∨
      (200 ≤ d.http_status_code ∧ d.http_status_code ≤ 299)) := by
  unfold getRobotsDataMiss at h
  split at h
  · simp at h
  · simp only [Option.some.injEq, Except.ok.injEq] at h
    subst h
    obtain ⟨ha, h1, h2⟩ := fetchModel_ok _ _ _ _ _ (by assumption)
    refine ⟨fun _ => ⟨h1, h2⟩, fun hx => ?_, fun hx => ?_⟩ <;> (rw [ha] at hx; simp at hx)
  · simp only [Option.some.injEq, Except.ok.injEq] at h
    subst h
    have hb := fetchModel_unavailable _ _ _ _ _ (by assumption)
    refine ⟨fun hx => ?_, fun _ => ?_, fun hx => ?_⟩
    · simp at hx
    · simpa using hb
    · simp at hx
  · simp only [Option.some.injEq, Except.ok.injEq] at h
    subst h
    have hb := fetchModel_unreachable _ _ _ _ _ _ (by assumption)
    refine ⟨fun hx => ?_, fun hx => ?_, fun _ => ?_⟩
    · simp at hx
    · simp at hx
    · rcases hb with hnone | ⟨s2, hs, hrange⟩
      · subst hnone
        simp
      · subst hs
        simp
        omega
  · simp only [Option.some.injEq, Except.ok.injEq] at h
    subst h
    refine ⟨fun hx => ?_, fun hx => ?_, fun _ => ?_⟩
    · simp at hx
    · simp at hx
    · simp
  · simp at h

theorem extractRobotsUrl_ok_parse {u r : Str} (h : extractRobotsUrl u = .ok r) :
    ∃ m, urlParse u = some m := by
  unfold extractRobotsUrl at h
  split at h
  · simp at h
  · exact ⟨_, by assumption⟩

theorem extractPathFromUrl_of_parse {u : Str} {m : UrlModel} (hm : urlParse u = some m) :
    extractPathFromUrl u =
      .ok (m.path ++ (match m.query with | some q => '?' :: q | none => [])) := by
  unfold extractPathFromUrl
  rw [hm]

theorem isAllowed_nil_groups (d : RobotsData) (ua path : Str) (hg : d.groups = []) :
    isAllowed d ua path = true := by
  simp [isAllowed, groupsToCheck, matchingGroups, wildcardGroups, hg]

theorem getRobotsDataMiss_unavailable_groups (parse : List Nat → List UaGroup × List Str)
    (rb tg : Str) (cl : Nat) (oc : HttpOutcome) (d : RobotsData)
    (h : getRobotsDataMiss parse rb tg cl oc = some (.ok d))
    (ha : d.access_result = .unavailable) : d.groups = [] := by
  unfold getRobotsDataMiss at h
  split at h
  · simp at h
  · simp only [Option.some.injEq, Except.ok.injEq] at h
    subst h
    obtain ⟨hs, _, _⟩ := fetchModel_ok _ _ _ _ _ (by assumption)
    rw [hs] at ha
    simp at ha
  · simp only [Option.some.injEq, Except.ok.injEq] at h
    subst h
    rfl
  · simp only [Option.some.injEq, Except.ok.injEq] at h
    subst h
    simp at ha
  · simp only [Option.some.injEq, Except.ok.injEq] at h
    subst h
    simp at ha
  · simp at h

/-- Claim C6: for every target URL and user agent, the coordinator's
`is_allowed` returns false whenever the obtained snapshot has
`access_result = Unreachable`, and returns true whenever it has
`access_result = Unavailable` (such snapshots have no groups, so every
path is allowed). -/
theorem c6_fail_closed (parse : List Nat → List UaGroup × List Str)
    (cl : Nat) (oc : HttpOutcome) (tg ua ru : Str) (d : RobotsData)
    (hru : extractRobotsUrl tg = .ok ru)
    (hd : getRobotsDataMiss parse ru tg cl oc = some (.ok d)) :
    (d.access_result = .unreachable → isAllowedRpc parse cl oc tg ua = some (.ok false)) ∧
    (d.access_result = .unavailable → isAllowedRpc parse cl oc tg ua = some (.ok true)) := by
  unfold isAllowedRpc
  constructor
  · intro hx
    simp only [hru, hd, hx]
  · intro hx
    obtain ⟨m, hm⟩ := extractRobotsUrl_ok_parse hru
    have hgroups := getRobotsDataMiss_unavailable_groups _ _ _ _ _ _ hd hx
    simp only [hru, hd, hx, extractPathFromUrl_of_parse hm,
      isAllowed_nil_groups _ _ _ hgroups]

/-- Claim C5 fails on the code: a 200 response whose body stream errors
mid-read is classified `Unreachable(msg, Some(200))`, and the coordinator
stores an Unreachable snapshot carrying the 2xx status code 200, which is
neither in [500,599] nor 0. -/
theorem c5_counterexample :
    getRobotsDataMiss trivialParse "http://h/robots.txt".toList "http://h".toList 0 c5Outcome =
      some (.ok c5Snap) ∧
    c5Snap.access_result = .unreachable ∧ c5Snap.http_status_code = 200 ∧
    ¬((500 ≤ c5Snap.http_status_code ∧ c5Snap.http_status_code ≤ 599) ∨
      c5Snap.http_status_code = 0) :=
  ⟨rfl, rfl, rfl, by decide⟩

/-- Witness for the amended claim C5 at the mid-stream-failure outcome. -/
theorem c5_amended_status_invariant_witness :
    getRobotsDataMiss trivialParse "http://h/robots.txt".toList "http://h".toList 0 c5Outcome =
      some (.ok c5Snap) ∧
    ((c5Snap.access_result = .success →
        200 ≤ c5Snap.http_status_code ∧ c5Snap.http_status_code ≤ 299) ∧
     (c5Snap.access_result = .unavailable →
        400 ≤ c5Snap.http_status_code ∧ c5Snap.http_status_code ≤ 499) ∧
     (c5Snap.access_result = .unreachable →
        (500 ≤ c5Snap.http_status_code ∧ c5Snap.http_status_code ≤ 599) ∨
        c5Snap.http_status_code = 0 ∨
        (200 ≤ c5Snap.http_status_code ∧ c5Snap.http_status_code ≤ 299))) :=
  ⟨rfl,
    c5_amended_status_invariant trivialParse "http://h/robots.txt".toList "http://h".toList 0 c5Outcome
      c5Snap rfl⟩

/-- Witness for claim C6 at a concrete 404 outcome. -/
theorem c6_fail_closed_witness :
    extractRobotsUrl "http://h".toList = .ok "http://h/robots.txt".toList ∧
    getRobotsDataMiss trivialParse "http://h/robots.txt".toList "http://h".toList 0
      (.response 404 []) = some (.ok c6Snap) ∧
    c6Snap.access_result = .unavailable ∧
    isAllowedRpc trivialParse 0 (.response 404 []) "http://h".toList "bot".toList =
      some (.ok true) :=
  ⟨rfl, rfl, rfl,
    (c6_fail_closed trivialParse 0 (.response 404 []) "http://h".toList "bot".toList
      "http://h/robots.txt".toList c6Snap rfl rfl).2 rfl⟩

theorem fetchModel_no_tmr (parse : List Nat → List UaGroup × List Str)
    (tg : Str) (cl : Nat) (oc : HttpOutcome) :
    fetchModel parse tg cl oc ≠ some (.error .tooManyRedirects) := by
  intro h
  unfold fetchModel at h
  repeat' split at h
  all_goals try simp at h
  all_goals first
    | (subst h
       obtain ⟨msg2, hm⟩ := extractRobotsUrl_err _ _ (by assumption)
       simp at hm)
    | (subst h
       obtain ⟨msg2, hm⟩ := readBody_err _ _ _ _ _ _ (by assumption)
       simp at hm)

/-! ## Claim C7 -/

/-- Claim C7 (code bug): `RobotsFetcher::new` sets the 30-second timeout
but never configures a redirect policy, so the client keeps reqwest's
default limit of 10 and follows a 6-redirect chain to completion instead
of failing, and no execution path of `fetch` ever produces the declared
`TooManyRedirects` error. -/
theorem c7_code_eval :
    robotsFetcherClient.timeoutSecs = some 30 ∧
    redirectChainFollowed robotsFetcherClient 6 = true ∧
    (∀ (parse : List Nat → List UaGroup × List Str) (tg : Str) (cl : Nat)
       (oc : HttpOutcome), isTooManyRedirectsErr (fetchModel parse tg cl oc) = false) := by
  refine ⟨rfl, by decide, ?_⟩
  intro parse tg cl oc
  unfold isTooManyRedirectsErr
  split
  · exact absurd (by assumption) (fetchModel_no_tmr parse tg cl oc)
  · rfl

theorem beq_false_of_pred {c d : Char} (p : Char → Bool) (h : p c = true) (hd : p d = false) :
    (c == d) = false := by
  by_cases hc : (c == d) = true
  · have he : c = d := by simpa using hc
    subst he
    rw [h] at hd
    exact absurd hd (by simp)
  · simpa using hc

theorem charOfNat_toNat {n : Nat} (h : n < 0xD800) : (Char.ofNat n).toNat = n := by
  have hv : n.isValidChar := by
    unfold Nat.isValidChar
    left
    exact h
  simp only [Char.ofNat, hv, dite_true, Char.toNat, Char.ofNatAux]
  simp [UInt32.toNat, UInt32.ofNat', Nat.mod_eq_of_lt]

theorem asciiLower_toNat (c : Char) : (asciiLower c).toNat =
    if 65 ≤ c.toNat ∧ c.toNat ≤ 90 then c.toNat + 32 else c.toNat := by
  unfold asciiLower
  split
  · rename_i h
    rw [charOfNat_toNat (by omega)]
  · rfl

theorem asciiLower_idem (c : Char) : asciiLower (asciiLower c) = asciiLower c := by
  by_cases hu : 65 ≤ c.toNat ∧ c.toNat ≤ 90
  · have h1 : (asciiLower c).toNat = c.toNat + 32 := by
      rw [asciiLower_toNat, if_pos hu]
    have h2 : ¬(65 ≤ (asciiLower c).toNat ∧ (asciiLower c).toNat ≤ 90) := by omega
    show (if 65 ≤ (asciiLower c).toNat ∧ (asciiLower c).toNat ≤ 90 then
      Char.ofNat ((asciiLower c).toNat + 32) else asciiLower c) = asciiLower c
    rw [if_neg h2]
  · have h0 : asciiLower c = c := by
      unfold asciiLower
      rw [if_neg hu]
    simp only [h0]

theorem lowerStr_idem (s : Str) : lowerStr (lowerStr s) = lowerStr s := by
  simp [lowerStr, List.map_map, Function.comp_def, asciiLower_idem]

theorem isAsciiAlpha_lower {c : Char} (h : isAsciiAlpha c = true) :
    isAsciiAlpha (asciiLower c) = true := by
  simp only [isAsciiAlpha, Bool.or_eq_true, Bool.and_eq_true, decide_eq_true_eq] at h ⊢
  rw [asciiLower_toNat]
  split <;> omega

theorem isSchemeChar_lower {c : Char} (h : isSchemeChar c = true) :
    isSchemeChar (asciiLower c) = true := by
  by_cases hu : 65 ≤ c.toNat ∧ c.toNat ≤ 90
  · have ha : isAsciiAlpha (asciiLower c) = true := by
      apply isAsciiAlpha_lower
      simp only [isAsciiAlpha, Bool.or_eq_true, Bool.and_eq_true, decide_eq_true_eq]
      left
      exact hu
    simp [isSchemeChar, ha]
  · have h0 : asciiLower c = c := by
      unfold asciiLower
      rw [if_neg hu]
    rw [h0]
    exact h

theorem beq_false_of_lowerAlpha {c d : Char} (hc : 97 ≤ c.toNat ∧ c.toNat ≤ 122)
    (hd : ¬(97 ≤ d.toNat ∧ d.toNat ≤ 122)) : (c == d) = false := by
  by_cases hcd : (c == d) = true
  · have he : c = d := by simpa using hcd
    subst he
    exact absurd hc hd
  · simpa using hcd

theorem isHostChar_lower {c : Char} (h : isHostChar c = true) :
    isHostChar (asciiLower c) = true := by
  by_cases hu : 65 ≤ c.toNat ∧ c.toNat ≤ 90
  · have hlow : 97 ≤ (asciiLower c).toNat ∧ (asciiLower c).toNat ≤ 122 := by
      rw [asciiLower_toNat, if_pos hu]
      omega
    unfold isHostChar
    rw [beq_false_of_lowerAlpha hlow (by decide), beq_false_of_lowerAlpha hlow (by decide),
      beq_false_of_lowerAlpha hlow (by decide), beq_false_of_lowerAlpha hlow (by decide),
      beq_false_of_lowerAlpha hlow (by decide), beq_false_of_lowerAlpha hlow (by decide),
      beq_false_of_lowerAlpha hlow (by decide), beq_false_of_lowerAlpha hlow (by decide),
      beq_false_of_lowerAlpha hlow (by decide)]
    rfl
  · have h0 : asciiLower c = c := by
      unfold asciiLower
      rw [if_neg hu]
    rw [h0]
    exact h

theorem digitChar_toNat {n : Nat} (h : n < 10) : (digitChar n).toNat = 48 + n := by
  unfold digitChar
  exact charOfNat_toNat (by omega)

theorem isAsciiDigit_digitChar {n : Nat} (h : n < 10) : isAsciiDigit (digitChar n) = true := by
  simp only [isAsciiDigit, digitChar_toNat h, Bool.and_eq_true, decide_eq_true_eq]
  omega

theorem digitVal?_digitChar {n : Nat} (h : n < 10) : digitVal? (digitChar n) = some n := by
  unfold digitVal?
  rw [if_pos (isAsciiDigit_digitChar h), digitChar_toNat h]
  congr 1
  omega

theorem natToCharsGo_ne_nil {fuel n : Nat} (h : n < fuel) : natToCharsGo fuel n ≠ [] := by
  cases fuel with
  | zero => omega
  | succ f =>
    unfold natToCharsGo
    split
    · simp
    · simp

theorem natToCharsGo_digits (fuel : Nat) :
    ∀ n c, c ∈ natToCharsGo fuel n → isAsciiDigit c = true := by
  induction fuel with
  | zero => intro n c hc; simp [natToCharsGo] at hc
  | succ f ih =>
    intro n c hc
    unfold natToCharsGo at hc
    split at hc
    · simp only [List.mem_singleton] at hc
      subst hc
      exact isAsciiDigit_digitChar (by omega)
    · rcases List.mem_append.mp hc with h1 | h1
      · exact ih _ _ h1
      · simp only [List.mem_singleton] at h1
        subst h1
        exact isAsciiDigit_digitChar (Nat.mod_lt _ (by omega))

theorem parseDigitsGo_append (a b : Str) :
    ∀ acc, parseDigitsGo (a ++ b) acc =
      match parseDigitsGo a acc with
      | some v => parseDigitsGo b v
      | none => none := by
  induction a with
  | nil => intro acc; rfl
  | cons c t ih =>
    intro acc
    simp only [List.cons_append, parseDigitsGo]
    cases digitVal? c with
    | some d => exact ih (acc * 10 + d)
    | none => rfl

theorem parseDigitsGo_natToCharsGo (fuel : Nat) :
    ∀ n acc, n < fuel →
      parseDigitsGo (natToCharsGo fuel n) acc =
        some (acc * 10 ^ (natToCharsGo fuel n).length + n) := by
  induction fuel with
  | zero => intro n acc h; omega
  | succ f ih =>
    intro n acc h
    by_cases h10 : n < 10
    · unfold natToCharsGo
      rw [if_pos h10]
      simp only [parseDigitsGo, digitVal?_digitChar h10, List.length_singleton, pow_one]
    · unfold natToCharsGo
      rw [if_neg h10]
      rw [parseDigitsGo_append]
      have hdiv : n / 10 < f := by omega
      rw [ih (n / 10) acc hdiv]
      simp only [parseDigitsGo, digitVal?_digitChar (Nat.mod_lt _ (by omega)),
        List.length_append, List.length_singleton]
      have hpow : (10 : Nat) ^ ((natToCharsGo f (n / 10)).length + 1) =
          10 ^ (natToCharsGo f (n / 10)).length * 10 := pow_succ 10 _
      rw [hpow, ← Nat.mul_assoc]
      congr 1
      omega

theorem parseDigits_natToChars (n : Nat) : parseDigits (natToChars n) = some n := by
  have hne : natToChars n ≠ [] := natToCharsGo_ne_nil (by omega)
  have hgo : parseDigitsGo (natToChars n) 0 =
      some (0 * 10 ^ (natToChars n).length + n) :=
    parseDigitsGo_natToCharsGo (n + 1) n 0 (by omega)
  rw [Nat.zero_mul, Nat.zero_add] at hgo
  unfold parseDigits
  cases hs : natToChars n with
  | nil => exact absurd hs hne
  | cons c t =>
    rw [hs] at hgo
    exact hgo

theorem natToChars_digits {n : Nat} : ∀ c ∈ natToChars n, isAsciiDigit c = true :=
  fun c hc => natToCharsGo_digits (n + 1) n c hc

theorem takeWhile_all {p : Char → Bool} (a : Str) (ha : ∀ x ∈ a, p x = true) :
    a.takeWhile p = a ∧ a.dropWhile p = [] := by
  induction a with
  | nil => exact ⟨rfl, rfl⟩
  | cons x xs ih =>
    have hx : p x = true := ha x (by simp)
    obtain ⟨h1, h2⟩ := ih fun y hy => ha y (by simp [hy])
    constructor
    · simp [List.takeWhile_cons, hx, h1]
    · simp [List.dropWhile_cons, hx, h2]

theorem takeWhile_append_stop {p : Char → Bool} (a : Str) (c : Char) (t : Str)
    (hc : p c = false) (ha : ∀ x ∈ a, p x = true) :
    (a ++ c :: t).takeWhile p = a ∧ (a ++ c :: t).dropWhile p = c :: t := by
  induction a with
  | nil => simp [List.takeWhile_cons, List.dropWhile_cons, hc]
  | cons x xs ih =>
    have hx : p x = true := ha x (by simp)
    obtain ⟨h1, h2⟩ := ih fun y hy => ha y (by simp [hy])
    constructor
    · simp [List.takeWhile_cons, hx, h1]
    · simp [List.dropWhile_cons, hx, h2]

theorem parsePort_some_some {scheme portRaw : Str} {p : Nat}
    (h : parsePort scheme portRaw = some (some p)) :
    p < 65536 ∧ ¬(scheme = "http".toList ∧ p = 80) ∧
      ¬(scheme = "https".toList ∧ p = 443) := by
  unfold parsePort at h
  repeat' split at h
  all_goals simp_all

theorem parseAfterScheme_inv {scheme rest3 : Str} {m : UrlModel}
    (h : parseAfterScheme scheme rest3 = some m)
    (hs_ne : scheme ≠ []) (hs_head : isAsciiAlpha scheme.headI = true)
    (hs_all : scheme.all isSchemeChar = true) (hs_low : lowerStr scheme = scheme) :
    UrlInvP m := by
  simp only [parseAfterScheme] at h
  split at h
  · simp at h
  · rename_i hguard
    split at h
    · simp at h
    · rename_i port hport
      have hm := (Option.some.inj h).symm
      subst hm
      simp only [Bool.not_eq_true, Bool.or_eq_false_iff, beq_eq_false_iff_ne,
        Bool.not_eq_false'] at hguard
      refine ⟨hs_ne, hs_head, hs_all, hs_low, ?_, by simp, ?_⟩
      · intro h' hh'
        have hinj : lowerStr _ = h' := Option.some.inj hh'
        subst hinj
        refine ⟨?_, ?_, lowerStr_idem _⟩
        · simp only [lowerStr]
          intro hnil
          rw [List.map_eq_nil_iff] at hnil
          exact hguard.1 hnil
        · simp only [lowerStr, List.all_map]
          have hall := hguard.2
          rw [List.all_eq_true] at hall ⊢
          intro x hx
          simp only [Function.comp_apply]
          exact isHostChar_lower (hall x hx)
      · intro p hp
        subst hp
        exact parsePort_some_some hport

theorem urlParse_inv {s : Str} {m : UrlModel} (h : urlParse s = some m) : UrlInvP m := by
  unfold urlParse at h
  split at h
  · rename_i c cs x rest2 heq1 heq2
    split at h
    · rename_i hguard
      split at h
      · rename_i rest3 heq3
        simp only [Bool.and_eq_true] at hguard
        refine parseAfterScheme_inv h ?_ ?_ ?_ (lowerStr_idem _)
        · simp [lowerStr]
        · simp only [lowerStr, List.map_cons, List.headI]
          exact isAsciiAlpha_lower hguard.1
        · simp only [lowerStr, List.all_map]
          have hall := hguard.2
          rw [List.all_eq_true] at hall ⊢
          intro y hy
          simp only [Function.comp_apply]
          exact isSchemeChar_lower (hall y hy)
      · simp at h
    · simp at h
  · simp at h

theorem colonPred_of_scheme {x : Char} (h : isSchemeChar x = true) :
    (!(x == ':')) = true := by
  rw [beq_false_of_pred isSchemeChar h (by decide)]
  rfl

theorem colonPred_of_host {x : Char} (h : isHostChar x = true) :
    (!(x == ':')) = true := by
  rw [beq_false_of_pred isHostChar h (by decide)]
  rfl

theorem authPred_of_host {x : Char} (h : isHostChar x = true) :
    (!(x == '/' || x == '?' || x == '#')) = true := by
  rw [beq_false_of_pred isHostChar h (by decide), beq_false_of_pred isHostChar h (by decide),
    beq_false_of_pred isHostChar h (by decide)]
  rfl

theorem authPred_of_digit {x : Char} (h : isAsciiDigit x = true) :
    (!(x == '/' || x == '?' || x == '#')) = true := by
  rw [beq_false_of_pred isAsciiDigit h (by decide), beq_false_of_pred isAsciiDigit h (by decide),
    beq_false_of_pred isAsciiDigit h (by decide)]
  rfl

theorem colonPred_of_digit {x : Char} (h : isAsciiDigit x = true) :
    (!(x == ':')) = true := by
  rw [beq_false_of_pred isAsciiDigit h (by decide)]
  rfl

theorem defaultPort_cond_false {sc : Str} {p : Nat}
    (h1 : ¬(sc = "http".toList ∧ p = 80)) (h2 : ¬(sc = "https".toList ∧ p = 443)) :
    ((sc == "http".toList && p == 80) || (sc == "https".toList && p == 443)) = false := by
  rw [Bool.or_eq_false_iff]
  constructor
  · by_cases hs : sc = "http".toList
    · have hp : (p == 80) = false := by
        by_cases hp80 : p = 80
        · exact absurd ⟨hs, hp80⟩ h1
        · exact beq_eq_false_iff_ne.mpr hp80
      rw [hp, Bool.and_false]
    · rw [beq_eq_false_iff_ne.mpr hs, Bool.false_and]
  · by_cases hs : sc = "https".toList
    · have hp : (p == 443) = false := by
        by_cases hp443 : p = 443
        · exact absurd ⟨hs, hp443⟩ h2
        · exact beq_eq_false_iff_ne.mpr hp443
      rw [hp, Bool.and_false]
    · rw [beq_eq_false_iff_ne.mpr hs, Bool.false_and]

theorem parsePort_nil (sc : Str) : parsePort sc [] = some none := rfl

theorem parsePort_colon_digits {sc : Str} {p : Nat} (hlt : p < 65536)
    (h1 : ¬(sc = "http".toList ∧ p = 80)) (h2 : ¬(sc = "https".toList ∧ p = 443)) :
    parsePort sc (':' :: natToChars p) = some (some p) := by
  obtain ⟨d, ds, hd⟩ : ∃ d ds, natToChars p = d :: ds := by
    cases hnc : natToChars p with
    | nil => exact absurd hnc (natToCharsGo_ne_nil (by omega))
    | cons d ds => exact ⟨d, ds, rfl⟩
  have hpd : parseDigits (d :: ds) = some p := by
    rw [← hd]
    exact parseDigits_natToChars p
  rw [hd]
  unfold parsePort
  simp only [hpd, if_pos hlt, defaultPort_cond_false h1 h2, Bool.false_eq_true, if_false]

theorem urlParse_format {m : UrlModel} (inv : UrlInvP m) {host : Str} (hh : m.host = some host) :
    urlParse (m.scheme ++ [':', '/', '/'] ++ host ++ portPiece m.port ++ "/robots.txt".toList) =
      some { scheme := m.scheme, host := some host, port := m.port,
             path := "/robots.txt".toList, query := none } := by
  obtain ⟨hsne, hshead, hsall, hslow, hostinv, hostsome, portinv⟩ := inv
  obtain ⟨hhne, hhall, hhlow⟩ := hostinv host hh
  obtain ⟨c, cs, hs⟩ : ∃ c cs, m.scheme = c :: cs := by
    cases hsc : m.scheme with
    | nil => exact absurd hsc hsne
    | cons c cs => exact ⟨c, cs, rfl⟩
  have hassoc : m.scheme ++ [':', '/', '/'] ++ host ++ portPiece m.port ++ "/robots.txt".toList =
      m.scheme ++ (':' :: '/' :: '/' :: (host ++ portPiece m.port ++ "/robots.txt".toList)) := by
    simp [List.append_assoc]
  rw [hassoc]
  have hsp1 := takeWhile_append_stop (p := fun x => !(x == ':')) m.scheme ':'
    ('/' :: '/' :: (host ++ portPiece m.port ++ "/robots.txt".toList))
    (by decide)
    (fun x hx => colonPred_of_scheme (List.all_eq_true.mp hsall x hx))
  unfold urlParse
  rw [hsp1.1, hsp1.2, hs]
  have hguard : (isAsciiAlpha c && (c :: cs).all isSchemeChar) = true := by
    rw [hs] at hshead hsall
    simp only [List.headI] at hshead
    rw [hshead, hsall]
    rfl
  rw [hs] at hslow
  simp only [hguard, if_true, hslow]
  have hlit : ("/robots.txt".toList : Str) = '/' :: "robots.txt".toList := rfl
  rw [hlit]
  have hppchars : ∀ x ∈ host ++ portPiece m.port,
      (!(x == '/' || x == '?' || x == '#')) = true := by
    intro x hx
    rcases List.mem_append.mp hx with h1 | h1
    · exact authPred_of_host (List.all_eq_true.mp hhall x h1)
    · cases hp : m.port with
      | none => rw [hp] at h1; simp [portPiece] at h1
      | some p =>
        rw [hp] at h1
        simp only [portPiece, List.mem_cons] at h1
        rcases h1 with h1 | h1
        · subst h1; decide
        · exact authPred_of_digit (natToChars_digits x h1)
  have hassoc2 : host ++ portPiece m.port ++ '/' :: "robots.txt".toList =
      (host ++ portPiece m.port) ++ '/' :: "robots.txt".toList := rfl
  have hspA := takeWhile_append_stop (p := fun x => !(x == '/' || x == '?' || x == '#'))
    (host ++ portPiece m.port) '/' "robots.txt".toList (by decide) hppchars
  simp only [parseAfterScheme]
  rw [hassoc2, hspA.1, hspA.2]
  have hguard2 : ((host == []) || !host.all isHostChar) = false := by
    rw [beq_eq_false_iff_ne.mpr hhne, hhall]
    rfl
  cases hp : m.port with
  | none =>
    simp only [portPiece, List.append_nil]
    have hspH := takeWhile_all (p := fun x => !(x == ':')) host
      (fun x hx => colonPred_of_host (List.all_eq_true.mp hhall x hx))
    rw [hspH.1, hspH.2, hguard2]
    simp only [Bool.false_eq_true, if_false, parsePort_nil]
    rw [hhlow]
    rfl
  | some p =>
    obtain ⟨hlt, h1, h2⟩ := portinv p hp
    rw [hs] at h1 h2
    simp only [portPiece]
    have hspH := takeWhile_append_stop (p := fun x => !(x == ':')) host ':'
      (natToChars p) (by decide)
      (fun x hx => colonPred_of_host (List.all_eq_true.mp hhall x hx))
    rw [hspH.1, hspH.2, hguard2]
    simp only [Bool.false_eq_true, if_false, parsePort_colon_digits hlt h1 h2]
    rw [hhlow]
    rfl

theorem extractRobotsUrl_of_parse {u : Str} {m : UrlModel} (hm : urlParse u = some m)
    (hsch : m.scheme = "http".toList ∨ m.scheme = "https".toList)
    {host : Str} (hh : m.host = some host) :
    extractRobotsUrl u =
      .ok (m.scheme ++ [':', '/', '/'] ++ host ++ portPiece m.port ++ "/robots.txt".toList) := by
  have inv := urlParse_inv hm
  unfold extractRobotsUrl
  simp only [hm]
  have hcond : ¬(¬(m.scheme = "http".toList) ∧ ¬(m.scheme = "https".toList)) := by tauto
  rw [if_neg hcond]
  simp only [hh]
  cases hp : m.port with
  | none =>
    simp [portPiece]
  | some p =>
    have hguard : (m.scheme = "http".toList ∧ p ≠ 80) ∨
        (m.scheme = "https".toList ∧ p ≠ 443) := by
      obtain ⟨_, h1, h2⟩ := inv.port_inv p hp
      rcases hsch with h | h
      · left
        exact ⟨h, fun hp80 => h1 ⟨h, hp80⟩⟩
      · right
        exact ⟨h, fun hp443 => h2 ⟨h, hp443⟩⟩
    show (if m.scheme = "http".toList ∧ p ≠ 80 ∨ m.scheme = "https".toList ∧ p ≠ 443 then
        Except.ok (m.scheme ++ "://".toList ++ host ++ [':'] ++ natToChars p ++
          "/robots.txt".toList)
      else Except.ok (m.scheme ++ "://".toList ++ host ++ "/robots.txt".toList)) =
      Except.ok (m.scheme ++ [':', '/', '/'] ++ host ++ portPiece (some p) ++
        "/robots.txt".toList)
    rw [if_pos hguard]
    simp [portPiece]

theorem extractRobotsUrl_ok_inv {u r : Str} (h : extractRobotsUrl u = .ok r) :
    ∃ m host, urlParse u = some m ∧
      (m.scheme = "http".toList ∨ m.scheme = "https".toList) ∧
      m.host = some host ∧
      r = m.scheme ++ [':', '/', '/'] ++ host ++ portPiece m.port ++ "/robots.txt".toList := by
  unfold extractRobotsUrl at h
  split at h
  · simp at h
  · rename_i m heq
    split at h
    · simp at h
    · rename_i hsch
      split at h
      · simp at h
      · rename_i host hh
        split at h
        · rename_i p hp
          split at h
          · rename_i hguard
            refine ⟨m, host, heq, by tauto, hh, ?_⟩
            have hr := Except.ok.inj h
            subst hr
            rw [hp]
            simp [portPiece]
          · rename_i hguard
            have inv := urlParse_inv heq
            obtain ⟨_, h1, h2⟩ := inv.port_inv p hp
            exact absurd hguard (by tauto)
        · rename_i hp
          refine ⟨m, host, heq, by tauto, hh, ?_⟩
          have hr := Except.ok.inj h
          subst hr
          rw [hp]
          simp [portPiece]

/-- Claim C9: on every URL where `extract_robots_url` succeeds, applying
it to its own output succeeds and returns the same robots URL. -/
theorem c9_idempotent (u r : Str) (h : extractRobotsUrl u = .ok r) :
    extractRobotsUrl r = .ok r := by
  obtain ⟨m, host, hm, hsch, hh, hr⟩ := extractRobotsUrl_ok_inv h
  have inv := urlParse_inv hm
  have hparse : urlParse r =
      some (⟨m.scheme, some host, m.port, "/robots.txt".toList, none⟩ : UrlModel) := by
    rw [hr]
    exact urlParse_format inv hh
  have hres := extractRobotsUrl_of_parse hparse hsch rfl
  rw [hres, hr]

/-- Claim C8: `extract_robots_url` fails with `InvalidUrl` iff the input
does not parse as an absolute URL (in the modelled `url` crate), its
scheme is neither http nor https, or it has no host; otherwise it emits
`scheme://host/robots.txt`, appending `:port` exactly when a port is
present and differs from the scheme's default, and discarding path, query
and fragment. -/
theorem c8_robots_url_spec (u : Str) :
    ((∃ msg, extractRobotsUrl u = .error (.invalidUrl msg)) ↔
      (urlParse u = none ∨ ∃ m, urlParse u = some m ∧
        (¬(m.scheme = "http".toList ∨ m.scheme = "https".toList) ∨ m.host = none))) ∧
    (∀ m host, urlParse u = some m →
      (m.scheme = "http".toList ∨ m.scheme = "https".toList) → m.host = some host →
      extractRobotsUrl u =
        .ok (m.scheme ++ "://".toList ++ host ++ claimPortPiece m ++ "/robots.txt".toList)) := by
  constructor
  · constructor
    · rintro ⟨msg, herr⟩
      cases hp : urlParse u with
      | none => exact Or.inl rfl
      | some m =>
        right
        refine ⟨m, rfl, ?_⟩
        by_contra hbad
        push_neg at hbad
        obtain ⟨hsch, hhost⟩ := hbad
        obtain ⟨host, hh⟩ : ∃ h, m.host = some h := by
          cases hho : m.host with
          | none => exact absurd hho hhost
          | some h => exact ⟨h, rfl⟩
        have hok := extractRobotsUrl_of_parse hp (by tauto) hh
        rw [hok] at herr
        simp at herr
    · rintro (hnone | ⟨m, hm, hbad⟩)
      · refine ⟨"Failed to parse URL".toList, ?_⟩
        unfold extractRobotsUrl
        rw [hnone]
      · unfold extractRobotsUrl
        simp only [hm]
        rcases hbad with hsch | hhost
        · rw [if_pos (by tauto)]
          exact ⟨_, rfl⟩
        · by_cases hs2 : ¬(m.scheme = "http".toList) ∧ ¬(m.scheme = "https".toList)
          · rw [if_pos hs2]
            exact ⟨_, rfl⟩
          · rw [if_neg hs2]
            simp only [hhost]
            exact ⟨_, rfl⟩
  · intro m host hm hsch hh
    rw [extractRobotsUrl_of_parse hm hsch hh]
    have inv := urlParse_inv hm
    cases hp : m.port with
    | none => simp [claimPortPiece, portPiece, hp]
    | some p =>
      obtain ⟨_, h1, h2⟩ := inv.port_inv p hp
      simp only [claimPortPiece, hp, portPiece]
      rw [if_neg (by tauto)]
      simp [List.append_assoc]

theorem getRobotsDataMiss_err {parse : List Nat → List UaGroup × List Str}
    {rb tg : Str} {cl : Nat} {oc : HttpOutcome} {e : StatusErr}
    (h : getRobotsDataMiss parse rb tg cl oc = some (.error e)) :
    ∃ msg, e = .internal msg := by
  unfold getRobotsDataMiss at h
  split at h <;> first
    | exact ⟨_, (Except.error.inj (Option.some.inj h)).symm⟩
    | simp at h

/-- Claim C10: whenever `extract_robots_url` succeeds on a URL,
`extract_path_from_url` also succeeds on it, so an `is_allowed` RPC that
obtained a snapshot can never fail with `InvalidArgument` during path
extraction. -/
theorem c10_path_extract_total (u r : Str) (h : extractRobotsUrl u = .ok r) :
    (∃ p, extractPathFromUrl u = .ok p) ∧
    (∀ (parse : List Nat → List UaGroup × List Str) (cl : Nat) (oc : HttpOutcome)
       (ua msg : Str),
       isAllowedRpc parse cl oc u ua ≠ some (.error (.invalidArgument msg))) := by
  obtain ⟨m, hm⟩ := extractRobotsUrl_ok_parse h
  constructor
  · exact ⟨_, extractPathFromUrl_of_parse hm⟩
  · intro parse cl oc ua msg hbad
    unfold isAllowedRpc at hbad
    simp only [h] at hbad
    cases hg : getRobotsDataMiss parse r u cl oc with
    | none =>
      simp only [hg] at hbad
      simp at hbad
    | some res =>
      cases res with
      | error e =>
        simp only [hg] at hbad
        obtain ⟨msg2, hmsg⟩ := getRobotsDataMiss_err hg
        subst hmsg
        simp at hbad
      | ok data =>
        simp only [hg] at hbad
        cases hacc : data.access_result <;>
          simp only [hacc, extractPathFromUrl_of_parse hm] at hbad <;>
          simp at hbad

/-- Witness for claim C8 at `http://example.com:8080/a`. -/
theorem c8_robots_url_spec_witness :
    urlParse "http://example.com:8080/a".toList =
      some ⟨"http".toList, some "example.com".toList, some 8080, "/a".toList, none⟩ ∧
    extractRobotsUrl "http://example.com:8080/a".toList =
      .ok "http://example.com:8080/robots.txt".toList :=
  ⟨rfl,
    (c8_robots_url_spec "http://example.com:8080/a".toList).2
      ⟨"http".toList, some "example.com".toList, some 8080, "/a".toList, none⟩
      "example.com".toList rfl (Or.inl rfl) rfl⟩

/-- Witness for claim C9 at `https://example.com:8443/x?q`. -/
theorem c9_idempotent_witness :
    extractRobotsUrl "https://example.com:8443/x?q".toList =
      .ok "https://example.com:8443/robots.txt".toList ∧
    extractRobotsUrl "https://example.com:8443/robots.txt".toList =
      .ok "https://example.com:8443/robots.txt".toList :=
  ⟨rfl, c9_idempotent "https://example.com:8443/x?q".toList
    "https://example.com:8443/robots.txt".toList rfl⟩

/-- Witness for claim C10 at `http://h/a?q`. -/
theorem c10_path_extract_total_witness :
    extractRobotsUrl "http://h/a?q".toList = .ok "http://h/robots.txt".toList ∧
    (∃ p, extractPathFromUrl "http://h/a?q".toList = .ok p) :=
  ⟨rfl, (c10_path_extract_total "http://h/a?q".toList "http://h/robots.txt".toList rfl).1⟩
